import Mathlib

/-!
Verification of the 3d-sweeper minefield core (src/src/game/minefield.rs and
src/src/game/block.rs) against its natural-language specification.

The Rust code is shallowly embedded: the dense `ndarray::Array3<Cell>` becomes a
total function `Idx → Cell` together with explicit dimensions and bounds-checked
access, `f64` mine density becomes `ℚ`, the Bevy `Entity` ids become `ℕ`, and
the two sources of randomness in `Minefield::initialize` (the shuffle of the
candidate list and the `rng.gen_bool` draws) become explicit parameters that
theorems quantify over.
-/

namespace Sweeper

/-- Grid index (x, y, z); mirrors the `(usize, usize, usize)` ndarray index. -/
abbrev Idx := ℕ × ℕ × ℕ

/-- Grid dimensions, one extent per axis. -/
abbrev Dims := ℕ × ℕ × ℕ

/-- Mirrors `enum Contains { Mine, Empty { adjacent_mines: u8 } }`.
`adjacent_mines` is modelled as `ℕ`; the count never exceeds 26, so `u8`
overflow cannot occur in the source. -/
inductive Contains where
  | Mine : Contains
  | Empty (adjacent_mines : ℕ) : Contains
deriving DecidableEq

/-- Mirrors `impl Default for Contains` (`Empty { adjacent_mines: 0 }`). -/
instance : Inhabited Contains := ⟨.Empty 0⟩

/-- Mirrors `struct Cell { contains, revealed, block: Option<Entity> }`; the
external entity reference is modelled as a bare `ℕ` id. The defaults are the
derived `Default` values of the source. -/
structure Cell where
  contains : Contains := .Empty 0
  revealed : Bool := false
  block : Option ℕ := none
deriving DecidableEq

instance : Inhabited Cell := ⟨{}⟩

/-- Mirrors `enum Safety { Clear, Safe, Random }` from settings.rs. -/
inductive Safety where
  | Clear : Safety
  | Safe : Safety
  | Random : Safety
deriving DecidableEq

/-- Mirrors `struct Minefield { cells: Array3<Cell>, density: f64, safety: Safety }`.
The 3-d array is a total function plus explicit dims; every access in the
source goes through bounds-checked `get`, modelled by `Minefield.get?`. -/
structure Minefield where
  dims : Dims
  cells : Idx → Cell
  density : ℚ
  safety : Safety

/-- Whether an index lies inside the grid. -/
def inBounds (d : Dims) (i : Idx) : Prop :=
  i.1 < d.1 ∧ i.2.1 < d.2.1 ∧ i.2.2 < d.2.2

instance (d : Dims) (i : Idx) : Decidable (inBounds d i) := by
  unfold inBounds; infer_instance

/-- ndarray `get`: `Some` cell exactly when the index is in bounds. -/
def Minefield.get? (f : Minefield) (i : Idx) : Option Cell :=
  if inBounds f.dims i then some (f.cells i) else none

/-- Pointwise store, modelling an assignment through `get_mut` / indexing. -/
def Minefield.set (f : Minefield) (i : Idx) (c : Cell) : Minefield :=
  { f with cells := fun j => if j = i then c else f.cells j }

/-- The 26 neighbor offsets produced by the nested `-1..=1` loops of the
source, in loop order, with `(0,0,0)` skipped by the `continue`. -/
def offsetList : List (ℤ × ℤ × ℤ) :=
  (([-1, 0, 1] : List ℤ).flatMap fun a =>
    (([-1, 0, 1] : List ℤ).flatMap fun b =>
      (([-1, 0, 1] : List ℤ).map fun c => (a, b, c)))).filter
    fun o => decide (o ≠ ((0 : ℤ), (0 : ℤ), (0 : ℤ)))

/-- `usize::wrapping_add_signed` on each coordinate followed by the ndarray
bounds check. A wrapped-around negative coordinate lands far above any
realistic dimension, so the subsequent `get` fails exactly when some shifted
coordinate leaves `[0, dim)`; that is what is modelled here. -/
def neighborIn (d : Dims) (i : Idx) (o : ℤ × ℤ × ℤ) : Option Idx :=
  let a : ℤ := (i.1 : ℤ) + o.1
  let b : ℤ := (i.2.1 : ℤ) + o.2.1
  let c : ℤ := (i.2.2 : ℤ) + o.2.2
  if 0 ≤ a ∧ a < (d.1 : ℤ) ∧ 0 ≤ b ∧ b < (d.2.1 : ℤ) ∧ 0 ≤ c ∧ c < (d.2.2 : ℤ)
  then some (a.toNat, b.toNat, c.toNat) else none

/-- `indexed_iter` order of `Array3`: row-major over the three axes (the list
product of the coordinate ranges). -/
def allIndices (d : Dims) : List Idx :=
  List.range d.1 ×ˢ (List.range d.2.1 ×ˢ List.range d.2.2)

/-- 26-adjacency of grid indices: distinct, and each coordinate differs by at
most one. -/
def adjacentIdx (i j : Idx) : Prop :=
  i ≠ j ∧ ((i.1 : ℤ) - (j.1 : ℤ)).natAbs ≤ 1 ∧
    ((i.2.1 : ℤ) - (j.2.1 : ℤ)).natAbs ≤ 1 ∧ ((i.2.2 : ℤ) - (j.2.2 : ℤ)).natAbs ≤ 1

instance (i j : Idx) : Decidable (adjacentIdx i j) := by
  unfold adjacentIdx; infer_instance

/- ### Basic lemmas about indices, offsets and neighbors -/

theorem mem_allIndices {d : Dims} {i : Idx} : i ∈ allIndices d ↔ inBounds d i := by
  obtain ⟨x, y, z⟩ := i
  simp [allIndices, inBounds, List.mem_product, List.mem_range]

theorem nodup_allIndices (d : Dims) : (allIndices d).Nodup :=
  (List.nodup_range _).product ((List.nodup_range _).product (List.nodup_range _))

theorem offsetList_bounds : ∀ o ∈ offsetList,
    -1 ≤ o.1 ∧ o.1 ≤ 1 ∧ -1 ≤ o.2.1 ∧ o.2.1 ≤ 1 ∧ -1 ≤ o.2.2 ∧ o.2.2 ≤ 1 ∧
      o ≠ ((0 : ℤ), (0 : ℤ), (0 : ℤ)) := by decide

theorem mem_offsetList_of {a b c : ℤ} (h1 : -1 ≤ a) (h2 : a ≤ 1) (h3 : -1 ≤ b)
    (h4 : b ≤ 1) (h5 : -1 ≤ c) (h6 : c ≤ 1) (h7 : ¬(a = 0 ∧ b = 0 ∧ c = 0)) :
    (a, b, c) ∈ offsetList := by
  have ha : a = -1 ∨ a = 0 ∨ a = 1 := by omega
  have hb : b = -1 ∨ b = 0 ∨ b = 1 := by omega
  have hc : c = -1 ∨ c = 0 ∨ c = 1 := by omega
  rcases ha with rfl | rfl | rfl <;> rcases hb with rfl | rfl | rfl <;>
    rcases hc with rfl | rfl | rfl <;>
      first
      | decide
      | exact absurd ⟨rfl, rfl, rfl⟩ h7

theorem nodup_offsetList : offsetList.Nodup := by decide

theorem neighborIn_eq_some {d : Dims} {x y z x' y' z' : ℕ} {a b c : ℤ} :
    neighborIn d (x, y, z) (a, b, c) = some (x', y', z') ↔
      (inBounds d (x', y', z') ∧ (x' : ℤ) = (x : ℤ) + a ∧
        (y' : ℤ) = (y : ℤ) + b ∧ (z' : ℤ) = (z : ℤ) + c) := by
  simp only [neighborIn, inBounds]
  split
  · rename_i h
    simp only [Option.some.injEq, Prod.mk.injEq]
    constructor
    · rintro ⟨h1, h2, h3⟩
      refine ⟨⟨?_, ?_, ?_⟩, ?_, ?_, ?_⟩ <;> omega
    · rintro ⟨⟨b1, b2, b3⟩, h1, h2, h3⟩
      refine ⟨?_, ?_, ?_⟩ <;> omega
  · rename_i h
    constructor
    · intro hh
      exact absurd hh (by simp)
    · rintro ⟨⟨b1, b2, b3⟩, h1, h2, h3⟩
      exact absurd ⟨by omega, by omega, by omega, by omega, by omega, by omega⟩ h

theorem neighborIn_inj {d : Dims} {i j : Idx} {o o' : ℤ × ℤ × ℤ}
    (h : neighborIn d i o = some j) (h' : neighborIn d i o' = some j) : o = o' := by
  obtain ⟨x, y, z⟩ := i
  obtain ⟨x', y', z'⟩ := j
  obtain ⟨a, b, c⟩ := o
  obtain ⟨a', b', c'⟩ := o'
  rw [neighborIn_eq_some] at h h'
  obtain ⟨-, h1, h2, h3⟩ := h
  obtain ⟨-, h1', h2', h3'⟩ := h'
  simp only [Prod.mk.injEq]
  refine ⟨by omega, by omega, by omega⟩

theorem exists_offset_iff {d : Dims} {i j : Idx} :
    (∃ o ∈ offsetList, neighborIn d i o = some j) ↔ (adjacentIdx i j ∧ inBounds d j) := by
  obtain ⟨x, y, z⟩ := i
  obtain ⟨x', y', z'⟩ := j
  constructor
  · rintro ⟨o, ho, hsome⟩
    obtain ⟨a, b, c⟩ := o
    have hbo := offsetList_bounds _ ho
    dsimp only at hbo
    rw [neighborIn_eq_some] at hsome
    obtain ⟨hbnd, h1, h2, h3⟩ := hsome
    refine ⟨⟨?_, ?_, ?_, ?_⟩, hbnd⟩
    · intro heq
      simp only [Prod.mk.injEq] at heq
      exact hbo.2.2.2.2.2.2 (by
        simp only [Prod.mk.injEq]
        refine ⟨by omega, by omega, by omega⟩)
    · dsimp only; omega
    · dsimp only; omega
    · dsimp only; omega
  · rintro ⟨⟨hne, h1, h2, h3⟩, hb⟩
    dsimp only at h1 h2 h3
    have hne' : ¬((x' : ℤ) - (x : ℤ) = 0 ∧ (y' : ℤ) - (y : ℤ) = 0 ∧
        (z' : ℤ) - (z : ℤ) = 0) := by
      rintro ⟨e1, e2, e3⟩
      exact hne (by
        simp only [Prod.mk.injEq]
        refine ⟨by omega, by omega, by omega⟩)
    refine ⟨((x' : ℤ) - (x : ℤ), (y' : ℤ) - (y : ℤ), (z' : ℤ) - (z : ℤ)), ?_, ?_⟩
    · exact mem_offsetList_of (by omega) (by omega) (by omega) (by omega) (by omega)
        (by omega) hne'
    · rw [neighborIn_eq_some]
      refine ⟨hb, by omega, by omega, by omega⟩

theorem adjacentIdx_symm {i j : Idx} (h : adjacentIdx i j) : adjacentIdx j i := by
  obtain ⟨hne, h1, h2, h3⟩ := h
  exact ⟨fun he => hne he.symm, by omega, by omega, by omega⟩

/- ### Mine placement (`Minefield::initialize`) -/

/-- Mirrors `Minefield::foreach_adjacent`: the existing (in-bounds) neighbors of
an index, in the nested loop order. -/
def adjacentList (d : Dims) (i : Idx) : List Idx :=
  offsetList.filterMap (neighborIn d i)

/-- The `safe_cells` list of `Minefield::initialize` (`match self.safety`). -/
def safeCells (safety : Safety) (d : Dims) (click : Idx) : List Idx :=
  match safety with
  | .Random => []
  | .Safe => [click]
  | .Clear => click :: adjacentList d click

/-- The candidate mine locations before shuffling: `indexed_iter`, keeping the
indices not contained in `safe_cells`. -/
def candidateCells (d : Dims) (safe : List Idx) : List Idx :=
  (allIndices d).filter fun i => decide (i ∉ safe)

/-- Mirrors `num_mines = (num_blocks as f64 * self.density) as usize`: the
float-to-integer `as` cast truncates toward zero (and clamps negative values to
zero, as `Int.toNat` does). -/
def numMines (numBlocks : ℕ) (density : ℚ) : ℕ :=
  (⌊(numBlocks : ℚ) * density⌋).toNat

/-- The mine-placement loop of `Minefield::initialize`, returning the indices
that receive a mine, in order. `n` is the `enumerate` counter, `numCells` the
length of the shuffled candidate list, and `coins n` models the
`rng.gen_bool(density)` draw available at iteration `n`. -/
def placeLoop (coins : ℕ → Bool) : List Idx → ℕ → ℕ → ℕ → List Idx
  | [], _, _, _ => []
  | i :: rest, n, numCells, minesToPlace =>
    if minesToPlace = 0 then []
    else if numCells - n ≤ minesToPlace ∨ coins n = true then
      i :: placeLoop coins rest (n + 1) numCells (minesToPlace - 1)
    else
      placeLoop coins rest (n + 1) numCells minesToPlace

/-- Mirrors the leading loop of `Minefield::initialize` that saves the Block
entity ids: `self.cells[block.index()].block = Some(entity)`. -/
def setBlocks (f : Minefield) (blocks : List (ℕ × Idx)) : Minefield :=
  blocks.foldl (fun g eb => g.set eb.2 { g.cells eb.2 with block := some eb.1 }) f

/-- Writing `Contains::Mine` into each chosen cell. -/
def placeMines (f : Minefield) (mined : List Idx) : Minefield :=
  mined.foldl (fun g i => g.set i { g.cells i with contains := .Mine }) f

/-- One step of the `increment_adjacent` closure: look up the (wrapped,
bounds-checked) neighbor of the mine at `m` and increment its count if it is
an `Empty` cell. -/
def incStep (m : Idx) (g' : Minefield) (o : ℤ × ℤ × ℤ) : Minefield :=
  match neighborIn g'.dims m o with
  | none => g'
  | some j =>
    match (g'.cells j).contains with
    | .Empty n => g'.set j { g'.cells j with contains := .Empty (n + 1) }
    | .Mine => g'

/-- Mirrors the `increment_adjacent` closure applied over the 26 offsets for
one mine at `m`: each existing `Empty` neighbor has its `adjacent_mines`
incremented. -/
def incAdjacent (g : Minefield) (m : Idx) : Minefield :=
  offsetList.foldl (incStep m) g

/-- Mirrors the `mines` collection of `Minefield::initialize`:
`indexed_iter().filter_map(...)` keeping the mine cells. -/
def minesList (g : Minefield) : List Idx :=
  (allIndices g.dims).filter fun i => decide ((g.cells i).contains = .Mine)

/-- Mirrors `Minefield::initialize(blocks, click_location)` with the two
sources of randomness made explicit: `shuffle` stands for the in-place
`random_cells.shuffle(&mut rng)` (theorems hypothesize that it permutes its
input) and `coins` for the stream of `rng.gen_bool(self.density)` draws. -/
def initField (f : Minefield) (blocks : List (ℕ × Idx)) (click : Idx)
    (shuffle : List Idx → List Idx) (coins : ℕ → Bool) : Minefield :=
  let f1 := setBlocks f blocks
  let nm := numMines (allIndices f1.dims).length f1.density
  let safe := safeCells f1.safety f1.dims click
  let randomCells := shuffle (candidateCells f1.dims safe)
  let f2 := placeMines f1 (placeLoop coins randomCells 0 randomCells.length nm)
  (minesList f2).foldl incAdjacent f2

/-- Number of grid cells whose `contains` is `Mine`. -/
def mineCount (g : Minefield) : ℕ := (minesList g).length

/- ### Lemmas about the placement pipeline -/

theorem Minefield.cells_set (f : Minefield) (i : Idx) (c : Cell) (j : Idx) :
    (f.set i c).cells j = if j = i then c else f.cells j := rfl

theorem Minefield.dims_set (f : Minefield) (i : Idx) (c : Cell) :
    (f.set i c).dims = f.dims := rfl

theorem setBlocks_dims (f : Minefield) (blocks : List (ℕ × Idx)) :
    (setBlocks f blocks).dims = f.dims := by
  induction blocks generalizing f with
  | nil => rfl
  | cons b bs ih => simpa [setBlocks] using ih _

theorem setBlocks_density (f : Minefield) (blocks : List (ℕ × Idx)) :
    (setBlocks f blocks).density = f.density := by
  induction blocks generalizing f with
  | nil => rfl
  | cons b bs ih => simpa [setBlocks] using ih _

theorem setBlocks_safety (f : Minefield) (blocks : List (ℕ × Idx)) :
    (setBlocks f blocks).safety = f.safety := by
  induction blocks generalizing f with
  | nil => rfl
  | cons b bs ih => simpa [setBlocks] using ih _

theorem setBlocks_contains (f : Minefield) (blocks : List (ℕ × Idx)) (j : Idx) :
    ((setBlocks f blocks).cells j).contains = (f.cells j).contains := by
  induction blocks generalizing f with
  | nil => rfl
  | cons b bs ih =>
    simp only [setBlocks, List.foldl_cons] at *
    rw [ih]
    by_cases h : j = b.2 <;> simp [Minefield.cells_set, h]

theorem setBlocks_revealed (f : Minefield) (blocks : List (ℕ × Idx)) (j : Idx) :
    ((setBlocks f blocks).cells j).revealed = (f.cells j).revealed := by
  induction blocks generalizing f with
  | nil => rfl
  | cons b bs ih =>
    simp only [setBlocks, List.foldl_cons] at *
    rw [ih]
    by_cases h : j = b.2 <;> simp [Minefield.cells_set, h]

theorem placeMines_dims (f : Minefield) (l : List Idx) :
    (placeMines f l).dims = f.dims := by
  induction l generalizing f with
  | nil => rfl
  | cons i is ih => simpa [placeMines] using ih _

theorem placeMines_density (f : Minefield) (l : List Idx) :
    (placeMines f l).density = f.density := by
  induction l generalizing f with
  | nil => rfl
  | cons i is ih => simpa [placeMines] using ih _

theorem placeMines_safety (f : Minefield) (l : List Idx) :
    (placeMines f l).safety = f.safety := by
  induction l generalizing f with
  | nil => rfl
  | cons i is ih => simpa [placeMines] using ih _

theorem placeMines_contains (f : Minefield) (l : List Idx) (j : Idx) :
    ((placeMines f l).cells j).contains =
      if j ∈ l then .Mine else (f.cells j).contains := by
  induction l generalizing f with
  | nil => simp [placeMines]
  | cons i is ih =>
    simp only [placeMines, List.foldl_cons] at *
    rw [ih]
    by_cases hmem : j ∈ is
    · simp [hmem]
    · by_cases hj : j = i <;> simp [Minefield.cells_set, hmem, hj]

theorem placeMines_revealed (f : Minefield) (l : List Idx) (j : Idx) :
    ((placeMines f l).cells j).revealed = (f.cells j).revealed := by
  induction l generalizing f with
  | nil => rfl
  | cons i is ih =>
    simp only [placeMines, List.foldl_cons] at *
    rw [ih]
    by_cases hj : j = i <;> simp [Minefield.cells_set, hj]

theorem placeMines_block (f : Minefield) (l : List Idx) (j : Idx) :
    ((placeMines f l).cells j).block = (f.cells j).block := by
  induction l generalizing f with
  | nil => rfl
  | cons i is ih =>
    simp only [placeMines, List.foldl_cons] at *
    rw [ih]
    by_cases hj : j = i <;> simp [Minefield.cells_set, hj]

/-- Effect of `increment_adjacent` on the `contains` of a hit cell. -/
def bumpAdj : Contains → Contains
  | .Empty n => .Empty (n + 1)
  | .Mine => .Mine

theorem incStep_dims (m : Idx) (g : Minefield) (o : ℤ × ℤ × ℤ) :
    (incStep m g o).dims = g.dims := by
  unfold incStep
  rcases h : neighborIn g.dims m o with - | j
  · rfl
  · rcases hc : (g.cells j).contains with - | n <;> simp [hc, Minefield.dims_set]

theorem incStep_revealed (m : Idx) (g : Minefield) (o : ℤ × ℤ × ℤ) (c : Idx) :
    ((incStep m g o).cells c).revealed = (g.cells c).revealed := by
  unfold incStep
  rcases h : neighborIn g.dims m o with - | j
  · rfl
  · rcases hc : (g.cells j).contains with - | n
    · simp [hc]
    · by_cases hj : c = j <;> simp [Minefield.cells_set, hc, hj]

theorem incStep_block (m : Idx) (g : Minefield) (o : ℤ × ℤ × ℤ) (c : Idx) :
    ((incStep m g o).cells c).block = (g.cells c).block := by
  unfold incStep
  rcases h : neighborIn g.dims m o with - | j
  · rfl
  · rcases hc : (g.cells j).contains with - | n
    · simp [hc]
    · by_cases hj : c = j <;> simp [Minefield.cells_set, hc, hj]

theorem incFold_dims (m : Idx) (os : List (ℤ × ℤ × ℤ)) (g : Minefield) :
    ((os.foldl (incStep m) g)).dims = g.dims := by
  induction os generalizing g with
  | nil => rfl
  | cons o os ih =>
    simp only [List.foldl_cons]
    rw [ih, incStep_dims]

theorem incFold_revealed (m : Idx) (os : List (ℤ × ℤ × ℤ)) (g : Minefield) (c : Idx) :
    ((os.foldl (incStep m) g).cells c).revealed = (g.cells c).revealed := by
  induction os generalizing g with
  | nil => rfl
  | cons o os ih =>
    simp only [List.foldl_cons]
    rw [ih, incStep_revealed]

theorem incFold_block (m : Idx) (os : List (ℤ × ℤ × ℤ)) (g : Minefield) (c : Idx) :
    ((os.foldl (incStep m) g).cells c).block = (g.cells c).block := by
  induction os generalizing g with
  | nil => rfl
  | cons o os ih =>
    simp only [List.foldl_cons]
    rw [ih, incStep_block]

theorem incFold_contains (m : Idx) (os : List (ℤ × ℤ × ℤ)) (hnd : os.Nodup)
    (g : Minefield) (c : Idx) :
    ((os.foldl (incStep m) g).cells c).contains =
      if ∃ o ∈ os, neighborIn g.dims m o = some c then bumpAdj (g.cells c).contains
      else (g.cells c).contains := by
  induction os generalizing g with
  | nil => simp
  | cons o os ih =>
    obtain ⟨hno, hnd'⟩ := List.nodup_cons.1 hnd
    simp only [List.foldl_cons]
    have hdims : (incStep m g o).dims = g.dims := incStep_dims m g o
    rcases h : neighborIn g.dims m o with - | j
    · have hstep : incStep m g o = g := by unfold incStep; rw [h]
      rw [hstep, ih hnd']
      have hcond : (∃ o' ∈ o :: os, neighborIn g.dims m o' = some c) ↔
          (∃ o' ∈ os, neighborIn g.dims m o' = some c) := by
        constructor
        · rintro ⟨o', ho', hs⟩
          rcases List.mem_cons.1 ho' with rfl | hm
          · rw [h] at hs; exact absurd hs (by simp)
          · exact ⟨o', hm, hs⟩
        · rintro ⟨o', ho', hs⟩
          exact ⟨o', List.mem_cons_of_mem _ ho', hs⟩
      by_cases hc : ∃ o' ∈ os, neighborIn g.dims m o' = some c
      · rw [if_pos hc, if_pos (hcond.2 hc)]
      · rw [if_neg hc, if_neg (fun hh => hc (hcond.1 hh))]
    · by_cases hjc : j = c
      · subst hjc
        have hnohit : ¬∃ o' ∈ os, neighborIn g.dims m o' = some j := by
          rintro ⟨o', ho', hs⟩
          exact hno (neighborIn_inj hs h ▸ ho')
        have hstepc : ((incStep m g o).cells j).contains = bumpAdj (g.cells j).contains := by
          unfold incStep
          rw [h]
          rcases hcc : (g.cells j).contains with - | n
          · simp [bumpAdj, hcc]
          · simp [Minefield.cells_set, bumpAdj, hcc]
        rw [ih hnd', hdims, if_neg hnohit, hstepc,
          if_pos ⟨o, List.mem_cons_self o os, h⟩]
      · have hstepc : ((incStep m g o).cells c).contains = (g.cells c).contains := by
          unfold incStep
          rw [h]
          rcases hcc : (g.cells j).contains with - | n
          · simp [hcc]
          · simp only [Minefield.cells_set, hcc]
            rw [if_neg (fun hh : c = j => hjc hh.symm)]
        rw [ih hnd', hdims, hstepc]
        have hcond : (∃ o' ∈ o :: os, neighborIn g.dims m o' = some c) ↔
            (∃ o' ∈ os, neighborIn g.dims m o' = some c) := by
          constructor
          · rintro ⟨o', ho', hs⟩
            rcases List.mem_cons.1 ho' with rfl | hm
            · rw [h] at hs
              exact absurd (Option.some.inj hs) hjc
            · exact ⟨o', hm, hs⟩
          · rintro ⟨o', ho', hs⟩
            exact ⟨o', List.mem_cons_of_mem _ ho', hs⟩
        by_cases hc : ∃ o' ∈ os, neighborIn g.dims m o' = some c
        · rw [if_pos hc, if_pos (hcond.2 hc)]
        · rw [if_neg hc, if_neg (fun hh => hc (hcond.1 hh))]

theorem incAdjacent_dims (g : Minefield) (m : Idx) : (incAdjacent g m).dims = g.dims := by
  rw [incAdjacent]
  exact incFold_dims m offsetList g

theorem incAdjacent_revealed (g : Minefield) (m c : Idx) :
    ((incAdjacent g m).cells c).revealed = (g.cells c).revealed := by
  rw [incAdjacent]
  exact incFold_revealed m offsetList g c

theorem incAdjacent_block (g : Minefield) (m c : Idx) :
    ((incAdjacent g m).cells c).block = (g.cells c).block := by
  rw [incAdjacent]
  exact incFold_block m offsetList g c

theorem incAdjacent_contains (g : Minefield) (m c : Idx) :
    ((incAdjacent g m).cells c).contains =
      if adjacentIdx m c ∧ inBounds g.dims c then bumpAdj (g.cells c).contains
      else (g.cells c).contains := by
  rw [incAdjacent, incFold_contains m offsetList nodup_offsetList g c]
  by_cases h : adjacentIdx m c ∧ inBounds g.dims c
  · rw [if_pos (exists_offset_iff.2 h), if_pos h]
  · rw [if_neg (fun hh => h (exists_offset_iff.1 hh)), if_neg h]

theorem adjFold_dims (L : List Idx) (g : Minefield) :
    (L.foldl incAdjacent g).dims = g.dims := by
  induction L generalizing g with
  | nil => rfl
  | cons m L ih =>
    simp only [List.foldl_cons]
    rw [ih, incAdjacent_dims]

theorem adjFold_revealed (L : List Idx) (g : Minefield) (c : Idx) :
    ((L.foldl incAdjacent g).cells c).revealed = (g.cells c).revealed := by
  induction L generalizing g with
  | nil => rfl
  | cons m L ih =>
    simp only [List.foldl_cons]
    rw [ih, incAdjacent_revealed]

theorem adjFold_block (L : List Idx) (g : Minefield) (c : Idx) :
    ((L.foldl incAdjacent g).cells c).block = (g.cells c).block := by
  induction L generalizing g with
  | nil => rfl
  | cons m L ih =>
    simp only [List.foldl_cons]
    rw [ih, incAdjacent_block]

theorem adjFold_contains_mine (L : List Idx) (g : Minefield) (c : Idx)
    (h : (g.cells c).contains = .Mine) :
    ((L.foldl incAdjacent g).cells c).contains = .Mine := by
  induction L generalizing g with
  | nil => exact h
  | cons m L ih =>
    simp only [List.foldl_cons]
    apply ih
    rw [incAdjacent_contains]
    by_cases hcond : adjacentIdx m c ∧ inBounds g.dims c
    · rw [if_pos hcond, h]; rfl
    · rw [if_neg hcond, h]

/-- Boolean form of adjacency to a fixed cell `c`, used for counting. -/
def adjacentB (c m : Idx) : Bool := decide (adjacentIdx m c)

theorem adjFold_contains_empty (L : List Idx) (g : Minefield) (c : Idx) (n : ℕ)
    (hb : inBounds g.dims c) (h : (g.cells c).contains = .Empty n) :
    ((L.foldl incAdjacent g).cells c).contains =
      .Empty (n + L.countP (adjacentB c)) := by
  induction L generalizing g n with
  | nil => simpa using h
  | cons m L ih =>
    have hcp : List.countP (adjacentB c) (m :: L) =
        List.countP (adjacentB c) L + (if adjacentIdx m c then 1 else 0) := by
      rw [List.countP_cons]
      by_cases hadj : adjacentIdx m c <;> simp [adjacentB, hadj]
    rw [List.foldl_cons, hcp]
    by_cases hadj : adjacentIdx m c
    · rw [if_pos hadj]
      have h1 : ((incAdjacent g m).cells c).contains = .Empty (n + 1) := by
        rw [incAdjacent_contains, if_pos ⟨hadj, hb⟩, h]; rfl
      rw [ih _ _ (by rw [incAdjacent_dims]; exact hb) h1]
      exact congrArg Contains.Empty
        ((Nat.add_right_comm n 1 _).trans (Nat.add_assoc n _ 1))
    · rw [if_neg hadj]
      have h1 : ((incAdjacent g m).cells c).contains = .Empty n := by
        rw [incAdjacent_contains, if_neg (fun hh => hadj hh.1), h]
      rw [ih _ _ (by rw [incAdjacent_dims]; exact hb) h1]
      rfl

/- ### Lemmas about the placement loop -/

theorem placeLoop_sublist (coins : ℕ → Bool) (l : List Idx) (n N m : ℕ) :
    List.Sublist (placeLoop coins l n N m) l := by
  induction l generalizing n m with
  | nil => simp [placeLoop]
  | cons i rest ih =>
    simp only [placeLoop]
    split
    · exact List.nil_sublist _
    · split
      · exact List.Sublist.cons₂ _ (ih _ _)
      · exact List.Sublist.cons _ (ih _ _)

theorem placeLoop_length (coins : ℕ → Bool) (l : List Idx) (n N m : ℕ)
    (hN : N = n + l.length) (hm : m ≤ l.length) :
    (placeLoop coins l n N m).length = m := by
  induction l generalizing n m with
  | nil =>
    simp only [List.length_nil, Nat.le_zero] at hm
    simp [placeLoop, hm]
  | cons i rest ih =>
    simp only [placeLoop]
    split
    · rename_i h0
      simp [h0]
    · rename_i h0
      simp only [List.length_cons] at hm hN
      split
      · rename_i hcond
        simp only [List.length_cons]
        rw [ih (n + 1) (m - 1) (by omega) (by omega)]
        omega
      · rename_i hcond
        have hlt : ¬(N - n ≤ m) := fun hh => hcond (Or.inl hh)
        exact ih (n + 1) m (by omega) (by omega)

theorem placeLoop_full (coins : ℕ → Bool) (l : List Idx) (n N m : ℕ)
    (hN : N = n + l.length) (hm : l.length ≤ m) :
    placeLoop coins l n N m = l := by
  induction l generalizing n m with
  | nil => simp [placeLoop]
  | cons i rest ih =>
    simp only [List.length_cons] at hm hN
    simp only [placeLoop]
    rw [if_neg (by omega)]
    rw [if_pos (Or.inl (by omega))]
    rw [ih (n + 1) (m - 1) (by omega) (by omega)]

/-- Counting the members of a duplicate-free list `s` inside a duplicate-free
list `l` that contains them all yields the length of `s`. -/
theorem countP_mem_eq_length {α : Type} [DecidableEq α] (l s : List α)
    (hl : l.Nodup) (hs : s.Nodup) (hsub : ∀ x ∈ s, x ∈ l) :
    (l.countP fun x => decide (x ∈ s)) = s.length := by
  have hperm : (l.filter fun x => decide (x ∈ s)).Perm s := by
    apply (List.perm_ext_iff_of_nodup (hl.filter _) hs).2
    intro a
    rw [List.mem_filter]
    simp only [decide_eq_true_eq]
    exact ⟨fun h => h.2, fun h => ⟨hsub a h, h⟩⟩
  rw [List.countP_eq_length_filter]
  exact hperm.length_eq

/- ### Support lemmas for `initField` -/

theorem mem_adjacentList {d : Dims} {i j : Idx} :
    j ∈ adjacentList d i ↔ (adjacentIdx i j ∧ inBounds d j) := by
  rw [adjacentList, List.mem_filterMap]
  exact exists_offset_iff

theorem nodup_adjacentList (d : Dims) (i : Idx) : (adjacentList d i).Nodup :=
  nodup_offsetList.filterMap fun _ _ _ h h' => neighborIn_inj h h'

theorem length_eq_of_nodup_mem {α : Type} (l₁ l₂ : List α) (h₁ : l₁.Nodup)
    (h₂ : l₂.Nodup) (h : ∀ a, a ∈ l₁ ↔ a ∈ l₂) : l₁.length = l₂.length :=
  ((List.perm_ext_iff_of_nodup h₁ h₂).2 h).length_eq

theorem initField_eval (f : Minefield) (blocks : List (ℕ × Idx)) (click : Idx)
    (shuffle : List Idx → List Idx) (coins : ℕ → Bool) (nm : ℕ)
    (hnm : numMines (allIndices f.dims).length f.density = nm) :
    initField f blocks click shuffle coins =
      (minesList (placeMines (setBlocks f blocks)
          (placeLoop coins
            (shuffle (candidateCells f.dims (safeCells f.safety f.dims click))) 0
            (shuffle (candidateCells f.dims (safeCells f.safety f.dims click))).length
            nm))).foldl incAdjacent
        (placeMines (setBlocks f blocks)
          (placeLoop coins
            (shuffle (candidateCells f.dims (safeCells f.safety f.dims click))) 0
            (shuffle (candidateCells f.dims (safeCells f.safety f.dims click))).length
            nm)) := by
  simp only [initField, setBlocks_dims, setBlocks_density, setBlocks_safety, hnm]

theorem numMines_density_one (n : ℕ) : numMines n 1 = n := by
  rw [numMines]
  norm_num

/- ### C7: the mine target formula -/

/-- Formula written from the spec sentence `num_mines = round(total_cells *
density)`, rounding to the nearest integer, for comparison with the
source-derived `numMines`. -/
def numMinesRoundSpec (numBlocks : ℕ) (density : ℚ) : ℕ :=
  (round ((numBlocks : ℚ) * density)).toNat

/-- C7, counterexample: with 3 cells and density 1/2 the source computes
`(3 * 0.5) as usize = 1` (truncation), while the spec formula rounds 1.5 to 2. -/
theorem c7_round_counterexample : numMines 3 (1/2) ≠ numMinesRoundSpec 3 (1/2) := by
  have h1 : numMines 3 (1/2) = 1 := by
    rw [numMines]
    norm_num
  have h2 : numMinesRoundSpec 3 (1/2) = 2 := by
    rw [numMinesRoundSpec]
    norm_num [round_eq]
    rfl
  omega

/-- C7 (amended): the number of mines targeted by initialization is the
truncation (floor) of `total_cells * density`: it is the greatest natural
number not exceeding that product. -/
theorem c7_mine_target_truncates (n : ℕ) (d : ℚ) (h : 0 ≤ d) :
    ((numMines n d : ℕ) : ℚ) ≤ (n : ℚ) * d ∧
      (n : ℚ) * d < ((numMines n d : ℕ) : ℚ) + 1 := by
  have hx : (0 : ℚ) ≤ (n : ℚ) * d := by positivity
  have hf : (0 : ℤ) ≤ ⌊(n : ℚ) * d⌋ := Int.floor_nonneg.2 hx
  have hcast : ((numMines n d : ℕ) : ℚ) = ((⌊(n : ℚ) * d⌋ : ℤ) : ℚ) := by
    rw [numMines]
    exact_mod_cast congrArg (fun z : ℤ => (z : ℚ)) (Int.toNat_of_nonneg hf)
  constructor
  · rw [hcast]
    exact Int.floor_le _
  · rw [hcast]
    exact Int.lt_floor_add_one _

/-- Witness for C7's amended theorem at (3 cells, density 1/2). -/
theorem c7_mine_target_truncates_witness :
    ((numMines 3 (1/2) : ℕ) : ℚ) ≤ (3 : ℚ) * (1/2) ∧
      (3 : ℚ) * (1/2) < ((numMines 3 (1/2) : ℕ) : ℚ) + 1 :=
  c7_mine_target_truncates 3 (1/2) (by norm_num)

/- ### Shared facts about the initialized field -/

theorem mem_candidateCells {d : Dims} {safe : List Idx} {j : Idx} :
    j ∈ candidateCells d safe ↔ (j ∈ allIndices d ∧ j ∉ safe) := by
  rw [candidateCells, List.mem_filter]
  simp

theorem nodup_candidateCells (d : Dims) (safe : List Idx) :
    (candidateCells d safe).Nodup :=
  (nodup_allIndices d).filter _

/-- The `contains` of every in-bounds cell of the initialized field is `Mine`
exactly when the placement loop chose that cell (assuming the field starts out
all `Empty 0`, as `spawn` builds it). -/
theorem initField_contains_mine_iff (f : Minefield) (blocks : List (ℕ × Idx))
    (click : Idx) (shuffle : List Idx → List Idx) (coins : ℕ → Bool)
    (h0 : ∀ i ∈ allIndices f.dims, (f.cells i).contains = .Empty 0)
    (j : Idx) (hjb : inBounds f.dims j) :
    ((initField f blocks click shuffle coins).cells j).contains = .Mine ↔
      j ∈ placeLoop coins
          (shuffle (candidateCells f.dims (safeCells f.safety f.dims click))) 0
          (shuffle (candidateCells f.dims (safeCells f.safety f.dims click))).length
          (numMines (allIndices f.dims).length f.density) := by
  rw [initField_eval f blocks click shuffle coins _ rfl]
  set M := placeLoop coins
      (shuffle (candidateCells f.dims (safeCells f.safety f.dims click))) 0
      (shuffle (candidateCells f.dims (safeCells f.safety f.dims click))).length
      (numMines (allIndices f.dims).length f.density) with hM
  have hdims2 : (placeMines (setBlocks f blocks) M).dims = f.dims := by
    rw [placeMines_dims, setBlocks_dims]
  have hcont2 : ∀ i, ((placeMines (setBlocks f blocks) M).cells i).contains =
      if i ∈ M then .Mine else (f.cells i).contains := by
    intro i
    rw [placeMines_contains, setBlocks_contains]
  constructor
  · intro hmine
    by_contra hnm
    have h2 : ((placeMines (setBlocks f blocks) M).cells j).contains =
        (f.cells j).contains := by
      rw [hcont2, if_neg hnm]
    have h3 := adjFold_contains_empty (minesList (placeMines (setBlocks f blocks) M))
      (placeMines (setBlocks f blocks) M) j 0 (by rw [hdims2]; exact hjb)
      (h2.trans (h0 j (mem_allIndices.2 hjb)))
    rw [h3] at hmine
    exact Contains.noConfusion hmine
  · intro hmem
    exact adjFold_contains_mine _ _ j (by rw [hcont2, if_pos hmem])

/-- A cell of the safe list never ends up a mine (used by C1 and C4). -/
theorem initField_safe_not_mine (f : Minefield) (blocks : List (ℕ × Idx))
    (click : Idx) (shuffle : List Idx → List Idx) (coins : ℕ → Bool)
    (h0 : ∀ i ∈ allIndices f.dims, (f.cells i).contains = .Empty 0)
    (hshuf : (shuffle (candidateCells f.dims (safeCells f.safety f.dims click))).Perm
      (candidateCells f.dims (safeCells f.safety f.dims click)))
    (j : Idx) (hjb : inBounds f.dims j)
    (hjsafe : j ∈ safeCells f.safety f.dims click) :
    ((initField f blocks click shuffle coins).cells j).contains ≠ .Mine := by
  intro hmine
  have hmem := (initField_contains_mine_iff f blocks click shuffle coins h0 j hjb).1 hmine
  have hrc : j ∈ shuffle (candidateCells f.dims (safeCells f.safety f.dims click)) :=
    (placeLoop_sublist _ _ _ _ _).subset hmem
  have hcand : j ∈ candidateCells f.dims (safeCells f.safety f.dims click) :=
    hshuf.subset hrc
  exact (mem_candidateCells.1 hcand).2 hjsafe

/-- A 1-cell field with density 1 under the `Random` policy; opening its only
cell places a mine on it. -/
def randomField : Minefield := ⟨(1, 1, 1), fun _ => {}, 1, .Random⟩

theorem randomField_numMines :
    numMines (allIndices randomField.dims).length randomField.density = 1 := by
  show numMines (allIndices (1, 1, 1)).length (1 : ℚ) = 1
  have hl : (allIndices ((1 : ℕ), (1 : ℕ), (1 : ℕ))).length = 1 := by decide
  rw [hl]
  exact numMines_density_one 1

set_option maxRecDepth 8000 in
theorem randomField_mine :
    ((initField randomField [] (0, 0, 0) id (fun _ => true)).cells (0, 0, 0)).contains =
      .Mine := by
  rw [initField_eval randomField [] (0, 0, 0) id (fun _ => true) 1 randomField_numMines]
  decide

/- ### C1: the first-click safety invariant -/

/-- C1: after initialization, under the `Safe` policy the clicked cell is not a
mine; under `Clear` neither the clicked cell nor any of its existing neighbors
is a mine; under `Random` no exclusion is imposed (there is a run of the
initializer that puts a mine on the clicked cell). -/
theorem c1_safety_invariant (f : Minefield) (blocks : List (ℕ × Idx))
    (click : Idx) (shuffle : List Idx → List Idx) (coins : ℕ → Bool)
    (h0 : ∀ i ∈ allIndices f.dims, (f.cells i).contains = .Empty 0)
    (hshuf : (shuffle (candidateCells f.dims (safeCells f.safety f.dims click))).Perm
      (candidateCells f.dims (safeCells f.safety f.dims click)))
    (hclick : inBounds f.dims click) :
    (f.safety = .Safe →
      ((initField f blocks click shuffle coins).cells click).contains ≠ .Mine)
    ∧ (f.safety = .Clear →
        (((initField f blocks click shuffle coins).cells click).contains ≠ .Mine ∧
          ∀ j ∈ adjacentList f.dims click,
            ((initField f blocks click shuffle coins).cells j).contains ≠ .Mine))
    ∧ (∃ (f' : Minefield) (blocks' : List (ℕ × Idx)) (click' : Idx)
          (shuffle' : List Idx → List Idx) (coins' : ℕ → Bool),
        f'.safety = .Random ∧
          (∀ i ∈ allIndices f'.dims, (f'.cells i).contains = .Empty 0) ∧
          (shuffle' (candidateCells f'.dims (safeCells f'.safety f'.dims click'))).Perm
            (candidateCells f'.dims (safeCells f'.safety f'.dims click')) ∧
          inBounds f'.dims click' ∧
          ((initField f' blocks' click' shuffle' coins').cells click').contains = .Mine) :=
  by
  refine ⟨?_, ?_, ?_⟩
  · intro hS
    apply initField_safe_not_mine f blocks click shuffle coins h0 hshuf click hclick
    rw [hS]
    simp [safeCells]
  · intro hC
    constructor
    · apply initField_safe_not_mine f blocks click shuffle coins h0 hshuf click hclick
      rw [hC]
      simp [safeCells]
    · intro j hj
      have hjb : inBounds f.dims j := (mem_adjacentList.1 hj).2
      apply initField_safe_not_mine f blocks click shuffle coins h0 hshuf j hjb
      rw [hC]
      simp only [safeCells]
      exact List.mem_cons_of_mem _ hj
  · exact ⟨randomField, [], (0, 0, 0), id, fun _ => true,
      rfl, by decide, List.Perm.refl _, by decide, randomField_mine⟩

theorem initField_dims (f : Minefield) (blocks : List (ℕ × Idx)) (click : Idx)
    (shuffle : List Idx → List Idx) (coins : ℕ → Bool) :
    (initField f blocks click shuffle coins).dims = f.dims := by
  rw [initField_eval f blocks click shuffle coins _ rfl, adjFold_dims, placeMines_dims,
    setBlocks_dims]

/- ### C4: the placed mine count -/

/-- C4: whenever the computed mine target does not exceed the number of
candidate cells, initialization places exactly that many mines; when it does
exceed it, every candidate cell becomes a mine, and the safe cells still hold
no mine. -/
theorem c4_mine_count (f : Minefield) (blocks : List (ℕ × Idx)) (click : Idx)
    (shuffle : List Idx → List Idx) (coins : ℕ → Bool)
    (h0 : ∀ i ∈ allIndices f.dims, (f.cells i).contains = .Empty 0)
    (hshuf : (shuffle (candidateCells f.dims (safeCells f.safety f.dims click))).Perm
      (candidateCells f.dims (safeCells f.safety f.dims click))) :
    (numMines (allIndices f.dims).length f.density ≤
        (candidateCells f.dims (safeCells f.safety f.dims click)).length →
      mineCount (initField f blocks click shuffle coins) =
        numMines (allIndices f.dims).length f.density)
    ∧ ((candidateCells f.dims (safeCells f.safety f.dims click)).length <
          numMines (allIndices f.dims).length f.density →
        ∀ j ∈ candidateCells f.dims (safeCells f.safety f.dims click),
          ((initField f blocks click shuffle coins).cells j).contains = .Mine)
    ∧ (∀ j ∈ safeCells f.safety f.dims click, inBounds f.dims j →
        ((initField f blocks click shuffle coins).cells j).contains ≠ .Mine) := by
  have hmineiff := initField_contains_mine_iff f blocks click shuffle coins h0
  set cand := candidateCells f.dims (safeCells f.safety f.dims click) with hcand
  set nm := numMines (allIndices f.dims).length f.density with hnmdef
  set rc := shuffle cand with hrcdef
  set M := placeLoop coins rc 0 rc.length nm with hMdef
  set g := initField f blocks click shuffle coins with hgdef
  have hrc_len : rc.length = cand.length := hshuf.length_eq
  have hrc_nodup : rc.Nodup := hshuf.nodup_iff.2 (nodup_candidateCells _ _)
  have hM_sub_rc : List.Sublist M rc := placeLoop_sublist coins rc 0 rc.length nm
  have hM_nodup : M.Nodup := hM_sub_rc.nodup hrc_nodup
  have hM_all : ∀ j ∈ M, j ∈ allIndices f.dims := fun j hj =>
    (mem_candidateCells.1 (hshuf.subset (hM_sub_rc.subset hj))).1
  have hgdims : g.dims = f.dims := initField_dims f blocks click shuffle coins
  have hmem : ∀ a, a ∈ minesList g ↔ a ∈ M := by
    intro a
    rw [minesList, List.mem_filter, hgdims]
    simp only [decide_eq_true_eq]
    constructor
    · rintro ⟨hain, hmine⟩
      exact (hmineiff a (mem_allIndices.1 hain)).1 hmine
    · intro haM
      refine ⟨hM_all a haM, (hmineiff a (mem_allIndices.1 (hM_all a haM))).2 haM⟩
  have hcount : mineCount g = M.length := by
    rw [mineCount]
    exact length_eq_of_nodup_mem (minesList g) M
      (by rw [minesList]; exact (nodup_allIndices _).filter _) hM_nodup hmem
  refine ⟨?_, ?_, ?_⟩
  · intro hle
    rw [hcount]
    exact placeLoop_length coins rc 0 rc.length nm (Nat.zero_add _).symm
      (by rw [hrc_len]; exact hle)
  · intro hgt j hj
    have hfull : M = rc := placeLoop_full coins rc 0 rc.length nm (Nat.zero_add _).symm
      (by rw [hrc_len]; omega)
    have hjM : j ∈ M := by
      rw [hfull]
      exact hshuf.symm.subset hj
    exact (hmineiff j (mem_allIndices.1 (mem_candidateCells.1 hj).1)).2 hjM
  · intro j hj hjb
    exact initField_safe_not_mine f blocks click shuffle coins h0 hshuf j hjb hj

/-- Witness field for the placement theorems: 2×1×1, density 1, `Safe` policy. -/
def safeField : Minefield := ⟨(2, 1, 1), fun _ => {}, 1, .Safe⟩

/-- Witness for C1 at the concrete `safeField`, clicking (0,0,0). -/
theorem c1_safety_invariant_witness :
    (safeField.safety = .Safe →
      ((initField safeField [] (0, 0, 0) id (fun _ => true)).cells (0, 0, 0)).contains ≠
        .Mine)
    ∧ (safeField.safety = .Clear →
        (((initField safeField [] (0, 0, 0) id (fun _ => true)).cells
            (0, 0, 0)).contains ≠ .Mine ∧
          ∀ j ∈ adjacentList safeField.dims (0, 0, 0),
            ((initField safeField [] (0, 0, 0) id (fun _ => true)).cells j).contains ≠
              .Mine))
    ∧ (∃ (f' : Minefield) (blocks' : List (ℕ × Idx)) (click' : Idx)
          (shuffle' : List Idx → List Idx) (coins' : ℕ → Bool),
        f'.safety = .Random ∧
          (∀ i ∈ allIndices f'.dims, (f'.cells i).contains = .Empty 0) ∧
          (shuffle' (candidateCells f'.dims (safeCells f'.safety f'.dims click'))).Perm
            (candidateCells f'.dims (safeCells f'.safety f'.dims click')) ∧
          inBounds f'.dims click' ∧
          ((initField f' blocks' click' shuffle' coins').cells click').contains = .Mine) :=
  c1_safety_invariant safeField [] (0, 0, 0) id (fun _ => true) (by decide)
    (List.Perm.refl _) (by decide)

/-- Witness for C4 at the concrete `safeField`, clicking (0,0,0). -/
theorem c4_mine_count_witness :
    (numMines (allIndices safeField.dims).length safeField.density ≤
        (candidateCells safeField.dims
          (safeCells safeField.safety safeField.dims (0, 0, 0))).length →
      mineCount (initField safeField [] (0, 0, 0) id (fun _ => true)) =
        numMines (allIndices safeField.dims).length safeField.density)
    ∧ ((candidateCells safeField.dims
          (safeCells safeField.safety safeField.dims (0, 0, 0))).length <
          numMines (allIndices safeField.dims).length safeField.density →
        ∀ j ∈ candidateCells safeField.dims
            (safeCells safeField.safety safeField.dims (0, 0, 0)),
          ((initField safeField [] (0, 0, 0) id (fun _ => true)).cells j).contains =
            .Mine)
    ∧ (∀ j ∈ safeCells safeField.safety safeField.dims (0, 0, 0),
        inBounds safeField.dims j →
        ((initField safeField [] (0, 0, 0) id (fun _ => true)).cells j).contains ≠
          .Mine) :=
  c4_mine_count safeField [] (0, 0, 0) id (fun _ => true) (by decide) (List.Perm.refl _)

theorem mem_minesList {g : Minefield} {i : Idx} :
    i ∈ minesList g ↔ (i ∈ allIndices g.dims ∧ (g.cells i).contains = .Mine) := by
  rw [minesList, List.mem_filter]
  simp

/- ### C6: adjacency counts -/

/-- C6: after initialization (from the all-default field that `spawn` builds),
every cell left `Empty` carries `adjacent_mines` equal to the exact number of
mines among its existing 26-neighbors. -/
theorem c6_adjacency_correct (f : Minefield) (blocks : List (ℕ × Idx)) (click : Idx)
    (shuffle : List Idx → List Idx) (coins : ℕ → Bool)
    (h0 : ∀ i ∈ allIndices f.dims, (f.cells i).contains = .Empty 0) :
    ∀ c ∈ allIndices f.dims, ∀ k,
      ((initField f blocks click shuffle coins).cells c).contains = .Empty k →
      k = ((adjacentList f.dims c).filter fun j =>
            decide (((initField f blocks click shuffle coins).cells j).contains =
              .Mine)).length := by
  intro c hc k hck
  have hcb : inBounds f.dims c := mem_allIndices.1 hc
  rw [initField_eval f blocks click shuffle coins _ rfl] at hck ⊢
  set M := placeLoop coins
      (shuffle (candidateCells f.dims (safeCells f.safety f.dims click))) 0
      (shuffle (candidateCells f.dims (safeCells f.safety f.dims click))).length
      (numMines (allIndices f.dims).length f.density) with hMdef
  set f2 := placeMines (setBlocks f blocks) M with hf2def
  have hf2dims : f2.dims = f.dims := by
    rw [hf2def, placeMines_dims, setBlocks_dims]
  have hminetrans : ∀ m, inBounds f.dims m →
      ((((minesList f2).foldl incAdjacent f2).cells m).contains = .Mine ↔
        (f2.cells m).contains = .Mine) := by
    intro m hmb
    constructor
    · intro hg
      rcases hcc : (f2.cells m).contains with - | n
      · rfl
      · have hEmpty := adjFold_contains_empty (minesList f2) f2 m n
          (by rw [hf2dims]; exact hmb) hcc
        rw [hEmpty] at hg
        exact Contains.noConfusion hg
    · exact adjFold_contains_mine _ _ m
  -- the clicked-on cell cannot be a mined cell, or it would not be Empty
  have hc2 : (f2.cells c).contains = .Empty 0 := by
    rcases hcc : (f2.cells c).contains with - | n
    · have hg := adjFold_contains_mine (minesList f2) f2 c hcc
      rw [hg] at hck
      exact Contains.noConfusion hck
    · rw [hf2def, placeMines_contains, setBlocks_contains] at hcc
      by_cases hcm : c ∈ M
      · rw [if_pos hcm] at hcc
        exact Contains.noConfusion hcc
      · rw [if_neg hcm] at hcc
        rw [h0 c hc] at hcc
        exact hcc.symm
  have hval := adjFold_contains_empty (minesList f2) f2 c 0
    (by rw [hf2dims]; exact hcb) hc2
  rw [hval] at hck
  have hk : k = (minesList f2).countP (adjacentB c) := by
    have := Contains.Empty.inj hck
    omega
  rw [hk, List.countP_eq_length_filter]
  apply length_eq_of_nodup_mem
  · exact ((nodup_allIndices _).filter _).filter _
  · exact (nodup_adjacentList _ _).filter _
  · intro m
    rw [List.mem_filter, List.mem_filter, mem_minesList, hf2dims]
    simp only [decide_eq_true_eq, adjacentB]
    constructor
    · rintro ⟨⟨hmin, hmine⟩, hadj⟩
      have hmb := mem_allIndices.1 hmin
      refine ⟨mem_adjacentList.2 ⟨adjacentIdx_symm hadj, hmb⟩, ?_⟩
      exact (hminetrans m hmb).2 hmine
    · rintro ⟨hmadj, hmine⟩
      obtain ⟨hadj, hmb⟩ := mem_adjacentList.1 hmadj
      refine ⟨⟨mem_allIndices.2 hmb, (hminetrans m hmb).1 hmine⟩, adjacentIdx_symm hadj⟩

theorem safeField_numMines :
    numMines (allIndices safeField.dims).length safeField.density = 2 := by
  show numMines (allIndices ((2 : ℕ), (1 : ℕ), (1 : ℕ))).length (1 : ℚ) = 2
  have hl : (allIndices ((2 : ℕ), (1 : ℕ), (1 : ℕ))).length = 2 := by decide
  rw [hl]
  exact numMines_density_one 2

set_option maxRecDepth 8000 in
theorem safeField_cell :
    ((initField safeField [] (0, 0, 0) id (fun _ => true)).cells (0, 0, 0)).contains =
      .Empty 1 := by
  rw [initField_eval safeField [] (0, 0, 0) id (fun _ => true) 2 safeField_numMines]
  decide

/-- Witness for C6 at the concrete `safeField`, clicking (0,0,0): the clicked
cell reads one adjacent mine, matching the filter count over its existing
neighbors. -/
theorem c6_adjacency_correct_witness :
    1 = ((adjacentList safeField.dims (0, 0, 0)).filter fun j =>
          decide (((initField safeField [] (0, 0, 0) id
            (fun _ => true)).cells j).contains = .Mine)).length :=
  c6_adjacency_correct safeField [] (0, 0, 0) id (fun _ => true) (by decide)
    (0, 0, 0) (by decide) 1 safeField_cell

/- ### Flood fill (`Minefield::reveal_adjacent`) -/

/-- Mirrors `enum BlockEvent { Clear(Entity, Contains), Mark(Entity),
EndReveal(Entity, Contains) }` from block.rs. -/
inductive BlockEvent where
  | Clear (id : ℕ) (contains : Contains)
  | Mark (id : ℕ)
  | EndReveal (id : ℕ) (contains : Contains)
deriving DecidableEq

/-- Number of in-bounds cells not yet revealed; the potential function that
bounds the flood-fill recursion. -/
def unrevealedCount (f : Minefield) : ℕ :=
  ((allIndices f.dims).filter fun i => !(f.cells i).revealed).length

/-- The recursion of `Minefield::reveal_adjacent`, embedded with explicit fuel
(the Rust recursion carries none; `reveal_adjacent` below instantiates the fuel
with `unrevealedCount`, and the fuel-stability theorem shows that any fuel at
least that large yields the same result, which is the termination argument; the
out-of-fuel branch is never taken then). The guards appear in source order:
existing neighbor, not already revealed, not a mine, block id present; then the
cell is revealed, a `Clear` event is emitted, and the fill recurses into the
neighbor exactly when `adjacent_mines == 0`. -/
def revealAdjacentGo : ℕ → Minefield → Idx → List (ℤ × ℤ × ℤ) →
    Minefield × List BlockEvent
  | _, f, _, [] => (f, [])
  | fuel, f, c, o :: os =>
    match neighborIn f.dims c o with
    | none => revealAdjacentGo fuel f c os
    | some j =>
      match (f.cells j).revealed with
      | true => revealAdjacentGo fuel f c os
      | false =>
        match (f.cells j).contains with
        | .Mine => revealAdjacentGo fuel f c os
        | .Empty adjacent_mines =>
          match (f.cells j).block with
          | none => revealAdjacentGo fuel f c os
          | some adj_id =>
            match adjacent_mines, fuel with
            | 0, 0 =>
              ((revealAdjacentGo 0 (f.set j { f.cells j with revealed := true }) c
                  os).1,
                BlockEvent.Clear adj_id (.Empty 0) ::
                  (revealAdjacentGo 0 (f.set j { f.cells j with revealed := true }) c
                    os).2)
            | 0, fuel' + 1 =>
              ((revealAdjacentGo (fuel' + 1)
                  (revealAdjacentGo fuel' (f.set j { f.cells j with revealed := true })
                    j offsetList).1 c os).1,
                BlockEvent.Clear adj_id (.Empty 0) ::
                  ((revealAdjacentGo fuel'
                      (f.set j { f.cells j with revealed := true }) j offsetList).2 ++
                    (revealAdjacentGo (fuel' + 1)
                      (revealAdjacentGo fuel'
                        (f.set j { f.cells j with revealed := true }) j
                        offsetList).1 c os).2))
            | m + 1, fuel2 =>
              ((revealAdjacentGo fuel2 (f.set j { f.cells j with revealed := true }) c
                  os).1,
                BlockEvent.Clear adj_id (.Empty (m + 1)) ::
                  (revealAdjacentGo fuel2
                    (f.set j { f.cells j with revealed := true }) c os).2)
  termination_by fuel f c os => (fuel, os.length)

/-- Mirrors `Minefield::reveal_adjacent(index)`: the recursive 26-neighborhood
fill seeded with enough fuel for its own termination. -/
def Minefield.reveal_adjacent (f : Minefield) (i : Idx) : Minefield × List BlockEvent :=
  revealAdjacentGo (unrevealedCount f) f i offsetList

/- ### Small state lemmas for the reveal step -/

theorem reveal_dims (f : Minefield) (j : Idx) :
    (f.set j { f.cells j with revealed := true }).dims = f.dims := rfl

theorem reveal_contains (f : Minefield) (j x : Idx) :
    ((f.set j { f.cells j with revealed := true }).cells x).contains =
      (f.cells x).contains := by
  by_cases hx : x = j <;> simp [Minefield.cells_set, hx]

theorem reveal_block (f : Minefield) (j x : Idx) :
    ((f.set j { f.cells j with revealed := true }).cells x).block =
      (f.cells x).block := by
  by_cases hx : x = j <;> simp [Minefield.cells_set, hx]

theorem reveal_revealed (f : Minefield) (j x : Idx) :
    ((f.set j { f.cells j with revealed := true }).cells x).revealed =
      if x = j then true else (f.cells x).revealed := by
  by_cases hx : x = j <;> simp [Minefield.cells_set, hx]

theorem countP_flip {α : Type} (l : List α) (hl : l.Nodup) (j : α) (hj : j ∈ l)
    (p p' : α → Bool) (hpj : p j = true) (hp'j : p' j = false)
    (hag : ∀ x ∈ l, x ≠ j → p' x = p x) : l.countP p' + 1 = l.countP p := by
  induction l with
  | nil => cases hj
  | cons a l ih =>
    obtain ⟨hnotin, hnd⟩ := List.nodup_cons.1 hl
    rcases List.mem_cons.1 hj with rfl | hj'
    · rw [List.countP_cons, List.countP_cons, hpj, hp'j]
      have hcongr : l.countP p' = l.countP p := by
        apply List.countP_congr
        intro x hx
        rw [hag x (List.mem_cons_of_mem _ hx) (fun hh => hnotin (hh ▸ hx))]
      simp [hcongr]
    · have haj : a ≠ j := fun hh => hnotin (hh ▸ hj')
      rw [List.countP_cons, List.countP_cons,
        hag a (List.mem_cons_self _ _) haj]
      have := ih hnd hj' (fun x hx hxj => hag x (List.mem_cons_of_mem _ hx) hxj)
      omega

theorem unrevealedCount_reveal (f : Minefield) (j : Idx) (hjb : inBounds f.dims j)
    (hjr : (f.cells j).revealed = false) :
    unrevealedCount (f.set j { f.cells j with revealed := true }) + 1 =
      unrevealedCount f := by
  rw [unrevealedCount, unrevealedCount, reveal_dims, ← List.countP_eq_length_filter,
    ← List.countP_eq_length_filter]
  apply countP_flip (allIndices f.dims) (nodup_allIndices _) j (mem_allIndices.2 hjb)
  · rw [hjr]
    rfl
  · rw [reveal_revealed, if_pos rfl]
    rfl
  · intro x _ hxj
    rw [reveal_revealed, if_neg hxj]

theorem unrevealedCount_pos (f : Minefield) (j : Idx) (hjb : inBounds f.dims j)
    (hjr : (f.cells j).revealed = false) : 0 < unrevealedCount f := by
  rw [unrevealedCount]
  apply List.length_pos.2
  intro hnil
  have : j ∈ (allIndices f.dims).filter fun i => !(f.cells i).revealed := by
    rw [List.mem_filter]
    exact ⟨mem_allIndices.2 hjb, by rw [hjr]; rfl⟩
  rw [hnil] at this
  cases this

/- ### Preservation lemmas for the flood fill -/

theorem go_dims : ∀ (fuel : ℕ) (os : List (ℤ × ℤ × ℤ)) (f : Minefield) (c : Idx),
    (revealAdjacentGo fuel f c os).1.dims = f.dims := by
  intro fuel
  induction fuel using Nat.strong_induction_on with
  | _ fuel ihf =>
  intro os
  induction os with
  | nil =>
    intro f c
    simp [revealAdjacentGo]
  | cons o os iho =>
    intro f c
    rw [revealAdjacentGo]
    rcases hn : neighborIn f.dims c o with - | j
    · simp only [hn]
      exact iho f c
    · simp only [hn]
      rcases hrev : (f.cells j).revealed with - | -
      · simp only
        rcases hcont : (f.cells j).contains with - | n
        · simp only
          exact iho f c
        · simp only
          rcases hblk : (f.cells j).block with - | id
          · simp only
            exact iho f c
          · simp only
            rcases n with - | m
            · rcases fuel with - | fuel'
              · simp only
                rw [iho]
                rfl
              · simp only
                rw [iho, ihf fuel' (Nat.lt_succ_self _)]
                rfl
            · simp only
              rw [iho]
              rfl
      · simp only
        exact iho f c

theorem neighborIn_inBounds {d : Dims} {i : Idx} {o : ℤ × ℤ × ℤ} {j : Idx}
    (h : neighborIn d i o = some j) : inBounds d j := by
  obtain ⟨x, y, z⟩ := i
  obtain ⟨x', y', z'⟩ := j
  obtain ⟨a, b, c⟩ := o
  exact (neighborIn_eq_some.1 h).1

theorem go_contains : ∀ (fuel : ℕ) (os : List (ℤ × ℤ × ℤ)) (f : Minefield) (c x : Idx),
    ((revealAdjacentGo fuel f c os).1.cells x).contains = (f.cells x).contains := by
  intro fuel
  induction fuel using Nat.strong_induction_on with
  | _ fuel ihf =>
  intro os
  induction os with
  | nil =>
    intro f c x
    simp [revealAdjacentGo]
  | cons o os iho =>
    intro f c x
    rw [revealAdjacentGo]
    rcases hn : neighborIn f.dims c o with - | j
    · simp only [hn]
      exact iho f c x
    · simp only [hn]
      rcases hrev : (f.cells j).revealed with - | -
      · simp only
        rcases hcont : (f.cells j).contains with - | n
        · simp only
          exact iho f c x
        · simp only
          rcases hblk : (f.cells j).block with - | id
          · simp only
            exact iho f c x
          · simp only
            rcases n with - | m
            · rcases fuel with - | fuel'
              · simp only
                rw [iho]
                by_cases hx : x = j <;> simp [Minefield.cells_set, hx, hcont]
              · simp only
                rw [iho, ihf fuel' (Nat.lt_succ_self _)]
                by_cases hx : x = j <;> simp [Minefield.cells_set, hx, hcont]
            · simp only
              rw [iho]
              by_cases hx : x = j <;> simp [Minefield.cells_set, hx, hcont]
      · simp only
        exact iho f c x

theorem go_block : ∀ (fuel : ℕ) (os : List (ℤ × ℤ × ℤ)) (f : Minefield) (c x : Idx),
    ((revealAdjacentGo fuel f c os).1.cells x).block = (f.cells x).block := by
  intro fuel
  induction fuel using Nat.strong_induction_on with
  | _ fuel ihf =>
  intro os
  induction os with
  | nil =>
    intro f c x
    simp [revealAdjacentGo]
  | cons o os iho =>
    intro f c x
    rw [revealAdjacentGo]
    rcases hn : neighborIn f.dims c o with - | j
    · simp only [hn]
      exact iho f c x
    · simp only [hn]
      rcases hrev : (f.cells j).revealed with - | -
      · simp only
        rcases hcont : (f.cells j).contains with - | n
        · simp only
          exact iho f c x
        · simp only
          rcases hblk : (f.cells j).block with - | id
          · simp only
            exact iho f c x
          · simp only
            rcases n with - | m
            · rcases fuel with - | fuel'
              · simp only
                rw [iho]
                by_cases hx : x = j <;> simp [Minefield.cells_set, hx, hblk]
              · simp only
                rw [iho, ihf fuel' (Nat.lt_succ_self _)]
                by_cases hx : x = j <;> simp [Minefield.cells_set, hx, hblk]
            · simp only
              rw [iho]
              by_cases hx : x = j <;> simp [Minefield.cells_set, hx, hblk]
      · simp only
        exact iho f c x

theorem go_mono : ∀ (fuel : ℕ) (os : List (ℤ × ℤ × ℤ)) (f : Minefield) (c x : Idx),
    (f.cells x).revealed = true →
    ((revealAdjacentGo fuel f c os).1.cells x).revealed = true := by
  intro fuel
  induction fuel using Nat.strong_induction_on with
  | _ fuel ihf =>
  intro os
  induction os with
  | nil =>
    intro f c x hx
    simpa [revealAdjacentGo] using hx
  | cons o os iho =>
    intro f c x hx
    rw [revealAdjacentGo]
    rcases hn : neighborIn f.dims c o with - | j
    · simp only [hn]
      exact iho f c x hx
    · simp only [hn]
      rcases hrev : (f.cells j).revealed with - | -
      · simp only
        rcases hcont : (f.cells j).contains with - | n
        · simp only
          exact iho f c x hx
        · simp only
          rcases hblk : (f.cells j).block with - | id
          · simp only
            exact iho f c x hx
          · simp only
            have hxj : x ≠ j := fun hh => by
              rw [hh] at hx
              rw [hx] at hrev
              cases hrev
            rcases n with - | m
            · rcases fuel with - | fuel'
              · simp only
                apply iho _ c x
                rw [Minefield.cells_set, if_neg hxj]
                exact hx
              · simp only
                apply iho _ c x
                apply ihf fuel' (Nat.lt_succ_self _) offsetList _ j x
                rw [Minefield.cells_set, if_neg hxj]
                exact hx
            · simp only
              apply iho _ c x
              rw [Minefield.cells_set, if_neg hxj]
              exact hx
      · simp only
        exact iho f c x hx

theorem count_step {A B C F : ℕ} (h1 : A + B = C) (h3 : C + 1 = F) :
    A + (B + 1) = F := by omega

theorem count_chain {A B C D E F : ℕ} (h2 : A + B = C) (h1 : C + D = E)
    (h3 : E + 1 = F) : A + (D + B + 1) = F := by omega

theorem go_count : ∀ (fuel : ℕ) (os : List (ℤ × ℤ × ℤ)) (f : Minefield) (c : Idx),
    unrevealedCount (revealAdjacentGo fuel f c os).1 +
      (revealAdjacentGo fuel f c os).2.length = unrevealedCount f := by
  intro fuel
  induction fuel using Nat.strong_induction_on with
  | _ fuel ihf =>
  intro os
  induction os with
  | nil =>
    intro f c
    simp [revealAdjacentGo]
  | cons o os iho =>
    intro f c
    rw [revealAdjacentGo]
    rcases hn : neighborIn f.dims c o with - | j
    · simp only [hn]
      exact iho f c
    · simp only [hn]
      rcases hrev : (f.cells j).revealed with - | -
      · simp only
        rcases hcont : (f.cells j).contains with - | n
        · simp only
          exact iho f c
        · simp only
          rcases hblk : (f.cells j).block with - | id
          · simp only
            exact iho f c
          · simp only
            have hjb : inBounds f.dims j := neighborIn_inBounds hn
            rcases n with - | m
            · rcases fuel with - | fuel'
              · simp only [List.length_cons]
                rw [← hcont, ← hblk]
                exact count_step (iho (f.set j { f.cells j with revealed := true }) c)
                  (unrevealedCount_reveal f j hjb hrev)
              · simp only [List.length_cons, List.length_append]
                rw [← hcont, ← hblk]
                exact count_chain
                  (iho (revealAdjacentGo fuel'
                    (f.set j { f.cells j with revealed := true }) j offsetList).1 c)
                  (ihf fuel' (Nat.lt_succ_self _) offsetList
                    (f.set j { f.cells j with revealed := true }) j)
                  (unrevealedCount_reveal f j hjb hrev)
            · simp only [List.length_cons]
              rw [← hcont, ← hblk]
              exact count_step (iho (f.set j { f.cells j with revealed := true }) c)
                (unrevealedCount_reveal f j hjb hrev)
      · simp only
        exact iho f c

theorem go_stab : ∀ (fuel₁ : ℕ) (os : List (ℤ × ℤ × ℤ)) (f : Minefield) (c : Idx)
    (fuel₂ : ℕ), unrevealedCount f ≤ fuel₁ → unrevealedCount f ≤ fuel₂ →
    revealAdjacentGo fuel₁ f c os = revealAdjacentGo fuel₂ f c os := by
  intro fuel₁
  induction fuel₁ using Nat.strong_induction_on with
  | _ fuel ihf =>
  intro os
  induction os with
  | nil =>
    intro f c fuel₂ h1 h2
    simp [revealAdjacentGo]
  | cons o os iho =>
    intro f c fuel₂ h1 h2
    rw [revealAdjacentGo]
    rw [revealAdjacentGo]
    rcases hn : neighborIn f.dims c o with - | j
    · simp only [hn]
      exact iho f c fuel₂ h1 h2
    · simp only [hn]
      rcases hrev : (f.cells j).revealed with - | -
      · simp only
        rcases hcont : (f.cells j).contains with - | n
        · simp only
          exact iho f c fuel₂ h1 h2
        · simp only
          rcases hblk : (f.cells j).block with - | id
          · simp only
            exact iho f c fuel₂ h1 h2
          · simp only
            have hjb : inBounds f.dims j := neighborIn_inBounds hn
            have hpos := unrevealedCount_pos f j hjb hrev
            rcases n with - | m
            · rcases fuel with - | a
              · omega
              · rcases fuel₂ with - | b
                · omega
                · simp only
                  rw [← hcont, ← hblk]
                  have hdec := unrevealedCount_reveal f j hjb hrev
                  have hinner := ihf a (Nat.lt_succ_self _) offsetList
                    (f.set j { f.cells j with revealed := true }) j b
                    (by omega) (by omega)
                  rw [hinner]
                  have hc1 := go_count b offsetList
                    (f.set j { f.cells j with revealed := true }) j
                  have hcont2 := iho ((revealAdjacentGo b
                      (f.set j { f.cells j with revealed := true }) j offsetList).1) c
                    (b + 1) (by omega) (by omega)
                  rw [hcont2]
            · simp only
              rw [← hcont, ← hblk]
              have hdec := unrevealedCount_reveal f j hjb hrev
              have hcont2 := iho (f.set j { f.cells j with revealed := true }) c fuel₂
                (by omega) (by omega)
              rw [hcont2]
      · simp only
        exact iho f c fuel₂ h1 h2

/-- Fuel stability down at the canonical amount: any sufficient fuel computes
the same fill as `unrevealedCount`. -/
theorem go_stab_canonical (fuel : ℕ) (f : Minefield) (i : Idx)
    (h : unrevealedCount f ≤ fuel) :
    revealAdjacentGo fuel f i offsetList = f.reveal_adjacent i :=
  go_stab fuel offsetList f i (unrevealedCount f) h (Nat.le_refl _)

/-- Cells without a block entity are never touched by the fill: their whole
cell (in particular `revealed`) is unchanged. -/
theorem go_blockless : ∀ (fuel : ℕ) (os : List (ℤ × ℤ × ℤ)) (f : Minefield) (c x : Idx),
    (f.cells x).block = none →
    ((revealAdjacentGo fuel f c os).1.cells x).revealed = (f.cells x).revealed := by
  intro fuel
  induction fuel using Nat.strong_induction_on with
  | _ fuel ihf =>
  intro os
  induction os with
  | nil =>
    intro f c x hx
    simp [revealAdjacentGo]
  | cons o os iho =>
    intro f c x hx
    rw [revealAdjacentGo]
    rcases hn : neighborIn f.dims c o with - | j
    · simp only [hn]
      exact iho f c x hx
    · simp only [hn]
      rcases hrev : (f.cells j).revealed with - | -
      · simp only
        rcases hcont : (f.cells j).contains with - | n
        · simp only
          exact iho f c x hx
        · simp only
          rcases hblk : (f.cells j).block with - | id
          · simp only
            exact iho f c x hx
          · simp only
            have hxj : x ≠ j := fun hh => by
              rw [hh, hblk] at hx
              cases hx
            rcases n with - | m
            · rcases fuel with - | fuel'
              · simp only
                rw [iho _ c x (by rw [Minefield.cells_set, if_neg hxj]; exact hx),
                  Minefield.cells_set, if_neg hxj]
              · simp only
                rw [iho _ c x
                    (by rw [go_block, Minefield.cells_set, if_neg hxj]; exact hx),
                  ihf fuel' (Nat.lt_succ_self _) offsetList _ j x
                    (by rw [Minefield.cells_set, if_neg hxj]; exact hx),
                  Minefield.cells_set, if_neg hxj]
            · simp only
              rw [iho _ c x (by rw [Minefield.cells_set, if_neg hxj]; exact hx),
                Minefield.cells_set, if_neg hxj]
      · simp only
        exact iho f c x hx

/-- Every emitted event is a `Clear` for a cell that existed, carried that
block id, was unrevealed in the pre-state, and contained the announced empty
count. -/
theorem go_events : ∀ (fuel : ℕ) (os : List (ℤ × ℤ × ℤ)) (f : Minefield) (c : Idx),
    ∀ ev ∈ (revealAdjacentGo fuel f c os).2,
      ∃ x id n, ev = BlockEvent.Clear id (.Empty n) ∧ inBounds f.dims x ∧
        (f.cells x).block = some id ∧ (f.cells x).revealed = false ∧
        (f.cells x).contains = .Empty n := by
  intro fuel
  induction fuel using Nat.strong_induction_on with
  | _ fuel ihf =>
  intro os
  induction os with
  | nil =>
    intro f c ev hev
    simp [revealAdjacentGo] at hev
  | cons o os iho =>
    intro f c
    rw [revealAdjacentGo]
    rcases hn : neighborIn f.dims c o with - | j
    · simp only [hn]
      exact iho f c
    · simp only [hn]
      have hjb : inBounds f.dims j := neighborIn_inBounds hn
      rcases hrev : (f.cells j).revealed with - | -
      · simp only
        rcases hcont : (f.cells j).contains with - | n
        · simp only
          exact iho f c
        · simp only
          rcases hblk : (f.cells j).block with - | id
          · simp only
            exact iho f c
          · simp only
            have htrans : ∀ x id' n',
                inBounds f.dims x →
                ((f.set j { contains := Contains.Empty n, revealed := true, block := some id }).cells x).block = some id' →
                ((f.set j { contains := Contains.Empty n, revealed := true, block := some id }).cells x).revealed = false →
                ((f.set j { contains := Contains.Empty n, revealed := true, block := some id }).cells x).contains = .Empty n' →
                ((f.cells x).block = some id' ∧ (f.cells x).revealed = false ∧
                  (f.cells x).contains = .Empty n') := by
              intro x id' n' hxb hb hr hc'
              by_cases hxj : x = j
              · rw [hxj, Minefield.cells_set, if_pos rfl] at hr
                cases hr
              · rw [Minefield.cells_set, if_neg hxj] at hb hr hc'
                exact ⟨hb, hr, hc'⟩
            rcases n with - | m
            · rcases fuel with - | fuel'
              · intro ev hev
                rcases List.mem_cons.1 hev with rfl | hev'
                · exact ⟨j, id, 0, rfl, hjb, hblk, hrev, hcont⟩
                · obtain ⟨x, id', n', heq, hxb, hb, hr, hc'⟩ := iho _ c ev hev'
                  obtain ⟨hb', hr', hc''⟩ := htrans x id' n' hxb hb hr hc'
                  exact ⟨x, id', n', heq, hxb, hb', hr', hc''⟩
              · intro ev hev
                rcases List.mem_cons.1 hev with rfl | hev'
                · exact ⟨j, id, 0, rfl, hjb, hblk, hrev, hcont⟩
                · rcases List.mem_append.1 hev' with hev1 | hev2
                  · obtain ⟨x, id', n', heq, hxb, hb, hr, hc'⟩ :=
                      ihf fuel' (Nat.lt_succ_self _) offsetList _ j ev hev1
                    obtain ⟨hb', hr', hc''⟩ := htrans x id' n' hxb hb hr hc'
                    exact ⟨x, id', n', heq, hxb, hb', hr', hc''⟩
                  · obtain ⟨x, id', n', heq, hxb, hb, hr, hc'⟩ := iho _ c ev hev2
                    rw [go_block] at hb
                    rw [go_contains] at hc'
                    rw [go_dims] at hxb
                    have hr2 : ((f.set j { contains := Contains.Empty 0, revealed := true, block := some id }).cells x).revealed = false := by
                      rcases hx2 : ((f.set j { contains := Contains.Empty 0, revealed := true, block := some id }).cells x).revealed with - | -
                      · rfl
                      · rw [go_mono fuel' offsetList _ j x hx2] at hr
                        cases hr
                    obtain ⟨hb', hr', hc''⟩ := htrans x id' n' hxb hb hr2 hc'
                    exact ⟨x, id', n', heq, hxb, hb', hr', hc''⟩
            · intro ev hev
              rcases List.mem_cons.1 hev with rfl | hev'
              · exact ⟨j, id, m + 1, rfl, hjb, hblk, hrev, hcont⟩
              · obtain ⟨x, id', n', heq, hxb, hb, hr, hc'⟩ := iho _ c ev hev'
                obtain ⟨hb', hr', hc''⟩ := htrans x id' n' hxb hb hr hc'
                exact ⟨x, id', n', heq, hxb, hb', hr', hc''⟩
      · simp only
        exact iho f c

/- ### Reachability through zero-adjacency cells -/

/-- An existing cell whose `contains` is `Empty` with zero adjacent mines. -/
def zeroCell (f : Minefield) (i : Idx) : Prop :=
  inBounds f.dims i ∧ (f.cells i).contains = .Empty 0

/-- One hop of the flood-fill recursion: both endpoints are zero cells and the
two indices are 26-adjacent. -/
def zeroStep (f : Minefield) (a b : Idx) : Prop :=
  zeroCell f a ∧ zeroCell f b ∧ adjacentIdx a b

/-- The connected region of zero cells reachable from `c`. -/
def zeroReach (f : Minefield) (c j : Idx) : Prop :=
  Relation.ReflTransGen (zeroStep f) c j

/-- An existing cell that does not contain a mine. -/
def emptyCellAt (f : Minefield) (i : Idx) : Prop :=
  inBounds f.dims i ∧ ∃ n, (f.cells i).contains = .Empty n

/-- The border of the zero region of `c`: an existing non-mine cell adjacent to
some cell of the region. -/
def borderOf (f : Minefield) (c j : Idx) : Prop :=
  emptyCellAt f j ∧ ∃ i, zeroReach f c i ∧ adjacentIdx i j

theorem zeroReach_zero {f : Minefield} {c j : Idx} (hc : zeroCell f c)
    (h : zeroReach f c j) : zeroCell f j := by
  induction h with
  | refl => exact hc
  | tail _ hstep => exact hstep.2.1

/-- Soundness of the fill: starting from a state whose revealed cells all lie
in the region-or-border of `c₀` (with cell contents agreeing with the
reference field `F`), everything revealed by the fill still lies there. -/
theorem go_sound (F : Minefield) (c₀ : Idx) :
    ∀ (fuel : ℕ) (os : List (ℤ × ℤ × ℤ)) (f : Minefield) (c : Idx),
    f.dims = F.dims →
    (∀ x, (f.cells x).contains = (F.cells x).contains) →
    (∀ o' ∈ os, o' ∈ offsetList) →
    zeroCell F c →
    zeroReach F c₀ c →
    (∀ x, inBounds F.dims x → (f.cells x).revealed = true →
      zeroReach F c₀ x ∨ borderOf F c₀ x) →
    ∀ x, inBounds F.dims x → ((revealAdjacentGo fuel f c os).1.cells x).revealed = true →
      zeroReach F c₀ x ∨ borderOf F c₀ x := by
  intro fuel
  induction fuel using Nat.strong_induction_on with
  | _ fuel ihf =>
  intro os
  induction os with
  | nil =>
    intro f c hd hagree hos hzc hreach hInv x hxb hx
    rw [show revealAdjacentGo fuel f c [] = (f, []) from by simp [revealAdjacentGo]]
      at hx
    exact hInv x hxb hx
  | cons o os iho =>
    intro f c hd hagree hos hzc hreach hInv x
    rw [revealAdjacentGo]
    have hos' : ∀ o' ∈ os, o' ∈ offsetList :=
      fun o' ho' => hos o' (List.mem_cons_of_mem _ ho')
    rcases hn : neighborIn f.dims c o with - | j
    · simp only [hn]
      exact iho f c hd hagree hos' hzc hreach hInv x
    · simp only [hn]
      have hadj : adjacentIdx c j ∧ inBounds f.dims j :=
        exists_offset_iff.1 ⟨o, hos o (List.mem_cons_self _ _), hn⟩
      have hjbF : inBounds F.dims j := hd ▸ hadj.2
      rcases hrev : (f.cells j).revealed with - | -
      · simp only
        rcases hcont : (f.cells j).contains with - | n
        · simp only
          exact iho f c hd hagree hos' hzc hreach hInv x
        · simp only
          rcases hblk : (f.cells j).block with - | id
          · simp only
            exact iho f c hd hagree hos' hzc hreach hInv x
          · simp only
            have hcontF : (F.cells j).contains = .Empty n := by
              rw [← hagree j]
              exact hcont
            have hagree' : ∀ y,
                ((f.set j { contains := Contains.Empty n, revealed := true, block := some id }).cells y).contains =
                  (F.cells y).contains := by
              intro y
              by_cases hy : y = j
              · rw [hy, Minefield.cells_set, if_pos rfl, hcontF]
              · rw [Minefield.cells_set, if_neg hy]
                exact hagree y
            have hjRB : ∀ m, n = m →
                (n = 0 → zeroReach F c₀ j) ∧ (zeroReach F c₀ j ∨ borderOf F c₀ j) := by
              intro m hm
              constructor
              · intro h0
                exact hreach.tail ⟨hzc, ⟨hjbF, h0 ▸ hcontF⟩, hadj.1⟩
              · by_cases h0 : n = 0
                · exact Or.inl (hreach.tail ⟨hzc, ⟨hjbF, h0 ▸ hcontF⟩, hadj.1⟩)
                · exact Or.inr ⟨⟨hjbF, n, hcontF⟩, c, hreach, hadj.1⟩
            have hInv' : ∀ y, inBounds F.dims y →
                ((f.set j { contains := Contains.Empty n, revealed := true, block := some id }).cells y).revealed = true →
                zeroReach F c₀ y ∨ borderOf F c₀ y := by
              intro y hyb hy
              by_cases hyj : y = j
              · rw [hyj]
                exact (hjRB n rfl).2
              · rw [Minefield.cells_set, if_neg hyj] at hy
                exact hInv y hyb hy
            rcases n with - | m
            · have hzj : zeroCell F j := ⟨hjbF, hcontF⟩
              have hreachj : zeroReach F c₀ j := (hjRB 0 rfl).1 rfl
              rcases fuel with - | fuel'
              · exact iho (f.set j { contains := Contains.Empty 0, revealed := true, block := some id }) c hd hagree' hos' hzc hreach hInv' x
              · apply iho (revealAdjacentGo fuel' (f.set j { contains := Contains.Empty 0, revealed := true, block := some id }) j offsetList).1
                  c ?_ ?_ hos' hzc hreach ?_ x
                · rw [go_dims]
                  exact hd
                · intro y
                  rw [go_contains]
                  exact hagree' y
                · intro y hy
                  exact ihf fuel' (Nat.lt_succ_self _) offsetList
                    (f.set j { contains := Contains.Empty 0, revealed := true, block := some id }) j hd hagree'
                    (fun o' ho' => ho') hzj hreachj hInv' y hy
            · exact iho (f.set j { contains := Contains.Empty (m + 1), revealed := true, block := some id }) c hd hagree' hos' hzc hreach hInv' x
      · simp only
        exact iho f c hd hagree hos' hzc hreach hInv x

/-- A neighbor that the fill will not skip for content reasons: an `Empty`
cell with a block id. -/
def eligCell (f : Minefield) (j : Idx) : Prop :=
  (∃ n, (f.cells j).contains = .Empty n) ∧ (f.cells j).block ≠ none

theorem eligCell_set (f : Minefield) (j x : Idx) (v : Cell)
    (hc : v.contains = (f.cells j).contains) (hb : v.block = (f.cells j).block) :
    eligCell (f.set j v) x ↔ eligCell f x := by
  unfold eligCell
  by_cases hx : x = j
  · rw [hx, Minefield.cells_set, if_pos rfl, hc, hb]
  · rw [Minefield.cells_set, if_neg hx]

theorem eligCell_go (fuel : ℕ) (os : List (ℤ × ℤ × ℤ)) (f : Minefield) (c x : Idx) :
    eligCell (revealAdjacentGo fuel f c os).1 x ↔ eligCell f x := by
  unfold eligCell
  rw [go_contains, go_block]

/-- Completeness of the fill, given enough fuel. Conjunct one: every eligible
neighbor reached through a still-pending offset ends up revealed. Conjunct
two: every zero cell that this call newly reveals has all its eligible
neighbors revealed on return (the fill recursed through it). -/
theorem go_comp : ∀ (fuel : ℕ) (os : List (ℤ × ℤ × ℤ)) (f : Minefield) (c : Idx),
    unrevealedCount f ≤ fuel →
    ((∀ o ∈ os, ∀ j, neighborIn f.dims c o = some j → eligCell f j →
        ((revealAdjacentGo fuel f c os).1.cells j).revealed = true)
      ∧ (∀ z, inBounds f.dims z → (f.cells z).revealed = false →
          ((revealAdjacentGo fuel f c os).1.cells z).revealed = true →
          (f.cells z).contains = .Empty 0 →
          ∀ o' ∈ offsetList, ∀ j, neighborIn f.dims z o' = some j → eligCell f j →
            ((revealAdjacentGo fuel f c os).1.cells j).revealed = true)) := by
  intro fuel
  induction fuel using Nat.strong_induction_on with
  | _ fuel ihf =>
  intro os
  induction os with
  | nil =>
    intro f c hfuel
    constructor
    · intro o ho
      cases ho
    · intro z hzb hz0 hz1 hzz
      rw [show revealAdjacentGo fuel f c [] = (f, []) from by simp [revealAdjacentGo]]
        at hz1
      rw [hz0] at hz1
      cases hz1
  | cons o os iho =>
    intro f c hfuel
    rw [revealAdjacentGo]
    rcases hn : neighborIn f.dims c o with - | j
    · simp only [hn]
      obtain ⟨ihA, ihB⟩ := iho f c hfuel
      constructor
      · intro o₀ ho₀ j₀ hn₀ helig
        rcases List.mem_cons.1 ho₀ with rfl | ho₀'
        · rw [hn₀] at hn
          cases hn
        · exact ihA o₀ ho₀' j₀ hn₀ helig
      · exact ihB
    · simp only [hn]
      have hjb : inBounds f.dims j := neighborIn_inBounds hn
      rcases hrev : (f.cells j).revealed with - | -
      · simp only
        rcases hcont : (f.cells j).contains with - | n
        · simp only
          obtain ⟨ihA, ihB⟩ := iho f c hfuel
          constructor
          · intro o₀ ho₀ j₀ hn₀ helig
            rcases List.mem_cons.1 ho₀ with rfl | ho₀'
            · rw [hn₀] at hn
              cases hn
              obtain ⟨⟨nn, hnn⟩, -⟩ := helig
              rw [hcont] at hnn
              cases hnn
            · exact ihA o₀ ho₀' j₀ hn₀ helig
          · exact ihB
        · simp only
          rcases hblk : (f.cells j).block with - | id
          · simp only
            obtain ⟨ihA, ihB⟩ := iho f c hfuel
            constructor
            · intro o₀ ho₀ j₀ hn₀ helig
              rcases List.mem_cons.1 ho₀ with rfl | ho₀'
              · rw [hn₀] at hn
                cases hn
                exact absurd hblk helig.2
              · exact ihA o₀ ho₀' j₀ hn₀ helig
            · exact ihB
          · simp only
            have hpos := unrevealedCount_pos f j hjb hrev
            have helig_set : ∀ x,
                eligCell (f.set j { contains := Contains.Empty n, revealed := true, block := some id }) x ↔
                  eligCell f x :=
              fun x => eligCell_set f j x _ (by rw [hcont]) (by rw [hblk])
            have hrevset : ∀ x, x ≠ j →
                ((f.set j { contains := Contains.Empty n, revealed := true, block := some id }).cells x).revealed =
                  (f.cells x).revealed := by
              intro x hx
              rw [Minefield.cells_set, if_neg hx]
            have hrevj :
                ((f.set j { contains := Contains.Empty n, revealed := true, block := some id }).cells j).revealed =
                  true := by
              rw [Minefield.cells_set, if_pos rfl]
            have hcontset : ∀ x,
                ((f.set j { contains := Contains.Empty n, revealed := true, block := some id }).cells x).contains =
                  (f.cells x).contains := by
              intro x
              by_cases hx : x = j
              · rw [hx, Minefield.cells_set, if_pos rfl, hcont]
              · rw [Minefield.cells_set, if_neg hx]
            have hdec : unrevealedCount (f.set j { contains := Contains.Empty n, revealed := true, block := some id }) + 1 =
                unrevealedCount f := by
              have h := unrevealedCount_reveal f j hjb hrev
              rw [show ({ f.cells j with revealed := true } : Cell) =
                { contains := (f.cells j).contains, revealed := true, block := (f.cells j).block } from rfl,
                hcont, hblk] at h
              exact h
            rcases n with - | m
            · rcases fuel with - | fuel'
              · omega
              · obtain ⟨ih1A, ih1B⟩ := ihf fuel' (Nat.lt_succ_self _) offsetList
                  (f.set j { contains := Contains.Empty 0, revealed := true, block := some id }) j (by omega)
                have hcr1 := go_count fuel' offsetList
                  (f.set j { contains := Contains.Empty 0, revealed := true, block := some id }) j
                obtain ⟨ih2A, ih2B⟩ := iho (revealAdjacentGo fuel'
                    (f.set j { contains := Contains.Empty 0, revealed := true, block := some id }) j offsetList).1
                  c (by omega)
                have hdims1 : (revealAdjacentGo fuel'
                    (f.set j { contains := Contains.Empty 0, revealed := true, block := some id }) j offsetList).1.dims =
                    f.dims := by
                  rw [go_dims]
                  rfl
                have helig1 : ∀ x,
                    eligCell (revealAdjacentGo fuel'
                      (f.set j { contains := Contains.Empty 0, revealed := true, block := some id }) j offsetList).1 x ↔
                    eligCell f x := by
                  intro x
                  rw [eligCell_go]
                  exact helig_set x
                constructor
                · intro o₀ ho₀ j₀ hn₀ helig
                  rcases List.mem_cons.1 ho₀ with rfl | ho₀'
                  · rw [hn₀] at hn
                    cases hn
                    apply go_mono
                    apply go_mono
                    exact hrevj
                  · apply ih2A o₀ ho₀' j₀ (by rw [hdims1]; exact hn₀)
                    exact (helig1 j₀).2 helig
                · intro z hzb hz0 hz1 hzz o' ho' j₀ hn₀ helig
                  by_cases hzj : z = j
                  · subst hzj
                    apply go_mono
                    apply ih1A o' ho' j₀ hn₀ ((helig_set j₀).2 helig)
                  · have hz0' : ((f.set j { contains := Contains.Empty 0, revealed := true, block := some id }).cells z).revealed = false := by
                      rw [hrevset z hzj]
                      exact hz0
                    have hzz' : ((f.set j { contains := Contains.Empty 0, revealed := true, block := some id }).cells z).contains = .Empty 0 := by
                      rw [hcontset z]
                      exact hzz
                    rcases hzr1 : ((revealAdjacentGo fuel'
                        (f.set j { contains := Contains.Empty 0, revealed := true, block := some id }) j offsetList).1.cells z).revealed with - | -
                    · -- z revealed only in the continuation
                      apply ih2B z (by rw [hdims1]; exact hzb) hzr1 hz1
                        (by rw [go_contains]; exact hzz') o' ho' j₀
                        (by rw [hdims1]; exact hn₀) ((helig1 j₀).2 helig)
                    · -- z revealed during the inner fill
                      apply go_mono
                      exact ih1B z hzb hz0' hzr1 hzz' o' ho' j₀ hn₀
                        ((helig_set j₀).2 helig)
            · obtain ⟨ihA, ihB⟩ := iho
                (f.set j { contains := Contains.Empty (m + 1), revealed := true, block := some id }) c (by omega)
              constructor
              · intro o₀ ho₀ j₀ hn₀ helig
                rcases List.mem_cons.1 ho₀ with rfl | ho₀'
                · rw [hn₀] at hn
                  cases hn
                  apply go_mono
                  exact hrevj
                · exact ihA o₀ ho₀' j₀ hn₀ ((helig_set j₀).2 helig)
              · intro z hzb hz0 hz1 hzz o' ho' j₀ hn₀ helig
                have hzj : z ≠ j := by
                  intro hh
                  rw [hh, hcont] at hzz
                  cases hzz
                apply ihB z hzb (by rw [hrevset z hzj]; exact hz0) hz1
                  (by rw [hcontset z]; exact hzz) o' ho' j₀ hn₀
                  ((helig_set j₀).2 helig)
      · simp only
        obtain ⟨ihA, ihB⟩ := iho f c hfuel
        constructor
        · intro o₀ ho₀ j₀ hn₀ helig
          rcases List.mem_cons.1 ho₀ with rfl | ho₀'
          · rw [hn₀] at hn
            cases hn
            exact go_mono _ _ _ _ _ hrev
          · exact ihA o₀ ho₀' j₀ hn₀ helig
        · exact ihB

/- ### The ClearBlock path of `handle_field_events` -/

/-- Mirrors `Minefield::fully_revealed`: true iff every cell is revealed or is
a mine. -/
def fully_revealed (f : Minefield) : Bool :=
  (allIndices f.dims).all fun i =>
    (f.cells i).revealed || decide ((f.cells i).contains = .Mine)

/-- The tail of the `FieldEvent::ClearBlock` arm of `handle_field_events`,
after the initial reveal (and the lazy initialization on a first click): the
cell is re-fetched, its block id unwrapped (`None` means the source would
panic, modelled as an undefined result), a `Clear` event is sent, the flood
fill runs when the cell is a zero-adjacency empty cell, and the win condition
is checked. The `Bool` in the result is the `fully_revealed` victory check. -/
def clearBlockTail (f : Minefield) (index : Idx) :
    Option (Minefield × List BlockEvent × Bool) :=
  match f.get? index with
  | none => none
  | some cell =>
    match cell.block with
    | none => none
    | some id =>
      match cell.contains with
      | .Empty 0 =>
        some ((f.reveal_adjacent index).1,
          BlockEvent.Clear id cell.contains :: (f.reveal_adjacent index).2,
          fully_revealed (f.reveal_adjacent index).1)
      | _ => some (f, [BlockEvent.Clear id cell.contains], fully_revealed f)

/-- The `FieldEvent::ClearBlock` arm of `handle_field_events` for an already
initialized field (states after the first click): mark the cell revealed, then
run the tail. -/
def clearBlock (f : Minefield) (index : Idx) :
    Option (Minefield × List BlockEvent × Bool) :=
  match f.get? index with
  | none => none
  | some _ => clearBlockTail (f.set index { f.cells index with revealed := true }) index

/-- The `FieldEvent::ClearBlock` arm on the very first click
(`GameState::GameStart`): the cell is revealed, the field initializes lazily
with the clicked cell as `click_location`, then the tail runs. -/
def clearBlockFirst (f : Minefield) (blocks : List (ℕ × Idx))
    (shuffle : List Idx → List Idx) (coins : ℕ → Bool) (index : Idx) :
    Option (Minefield × List BlockEvent × Bool) :=
  match f.get? index with
  | none => none
  | some _ =>
    clearBlockTail
      (initField (f.set index { f.cells index with revealed := true }) blocks index
        shuffle coins) index

/- ### C2: flood-fill closure -/

/-- C2: on an initialized field where no cell is revealed yet and every cell
carries its block id, opening a zero-adjacency cell reveals exactly the
maximal connected zero region of that cell together with its non-mine border,
and never reveals a mine. -/
theorem c2_flood_fill_closure (f : Minefield) (c : Idx)
    (hblocks : ∀ i ∈ allIndices f.dims, (f.cells i).block ≠ none)
    (hunrev : ∀ i ∈ allIndices f.dims, (f.cells i).revealed = false)
    (hc : inBounds f.dims c)
    (hzero : (f.cells c).contains = .Empty 0) :
    ∃ f' evs v, clearBlock f c = some (f', evs, v) ∧
      (∀ j, inBounds f.dims j →
        ((f'.cells j).revealed = true ↔ (zeroReach f c j ∨ borderOf f c j)))
      ∧ (∀ j, inBounds f.dims j → (f.cells j).contains = .Mine →
          (f'.cells j).revealed = false) := by
  rcases hb : (f.cells c).block with - | id
  · exact absurd hb (hblocks c (mem_allIndices.2 hc))
  · have hget : f.get? c = some (f.cells c) := by
      rw [Minefield.get?, if_pos hc]
    have hg0cell : (f.set c { f.cells c with revealed := true }).cells c =
        { f.cells c with revealed := true } := by
      rw [Minefield.cells_set, if_pos rfl]
    have hrun : clearBlock f c =
        some (((f.set c { f.cells c with revealed := true }).reveal_adjacent c).1,
          BlockEvent.Clear id (Contains.Empty 0) ::
            ((f.set c { f.cells c with revealed := true }).reveal_adjacent c).2,
          fully_revealed
            (((f.set c { f.cells c with revealed := true }).reveal_adjacent c).1)) := by
      simp [clearBlock, clearBlockTail, Minefield.get?, Minefield.set, hc, hb, hzero]
    have hg0dims : (f.set c { f.cells c with revealed := true }).dims = f.dims := rfl
    have hg0agree : ∀ x,
        ((f.set c { f.cells c with revealed := true }).cells x).contains =
          (f.cells x).contains := by
      intro x
      by_cases hx : x = c
      · rw [hx, hg0cell]
      · rw [Minefield.cells_set, if_neg hx]
    have hg0block : ∀ x,
        ((f.set c { f.cells c with revealed := true }).cells x).block =
          (f.cells x).block := by
      intro x
      by_cases hx : x = c
      · rw [hx, hg0cell]
      · rw [Minefield.cells_set, if_neg hx]
    have hg0rev : ∀ x, ((f.set c { f.cells c with revealed := true }).cells
        x).revealed = if x = c then true else (f.cells x).revealed := by
      intro x
      by_cases hx : x = c
      · rw [if_pos hx, hx, hg0cell]
      · rw [if_neg hx, Minefield.cells_set, if_neg hx]
    have hzc : zeroCell f c := ⟨hc, hzero⟩
    have helig : ∀ j, inBounds f.dims j →
        (∃ n, (f.cells j).contains = .Empty n) →
        eligCell (f.set c { f.cells c with revealed := true }) j := by
      intro j hjb hje
      refine ⟨?_, ?_⟩
      · obtain ⟨n, hn⟩ := hje
        exact ⟨n, by rw [hg0agree j]; exact hn⟩
      · rw [hg0block j]
        exact hblocks j (mem_allIndices.2 hjb)
    obtain ⟨hA, hB⟩ := go_comp (unrevealedCount
        (f.set c { f.cells c with revealed := true }))
      offsetList (f.set c { f.cells c with revealed := true }) c (Nat.le_refl _)
    have hreach_rev : ∀ j, zeroReach f c j →
        (((f.set c { f.cells c with revealed := true }).reveal_adjacent c).1.cells
          j).revealed = true := by
      intro j hj
      induction hj with
      | refl =>
        apply go_mono
        rw [hg0rev, if_pos rfl]
      | tail hcb hstep ih =>
        rename_i b j'
        obtain ⟨hzb, hzj', hadj⟩ := hstep
        have heligj' := helig j' hzj'.1 ⟨0, hzj'.2⟩
        obtain ⟨o, ho, hno⟩ := exists_offset_iff.2 ⟨hadj, hzj'.1⟩
        by_cases hbc : b = c
        · exact hA o ho j' (hbc ▸ hno) heligj'
        · have hbrev0 : ((f.set c { f.cells c with revealed := true }).cells
              b).revealed = false := by
            rw [hg0rev, if_neg hbc]
            exact hunrev b (mem_allIndices.2 hzb.1)
          exact hB b hzb.1 hbrev0 ih (by rw [hg0agree]; exact hzb.2) o ho j' hno
            heligj'
    have hInv0 : ∀ x, inBounds f.dims x →
        ((f.set c { f.cells c with revealed := true }).cells x).revealed = true →
        zeroReach f c x ∨ borderOf f c x := by
      intro x hxb hx
      rw [hg0rev] at hx
      by_cases hxc : x = c
      · exact Or.inl (hxc ▸ Relation.ReflTransGen.refl)
      · rw [if_neg hxc] at hx
        rw [hunrev x (mem_allIndices.2 hxb)] at hx
        cases hx
    have hsound : ∀ j, inBounds f.dims j →
        (((f.set c { f.cells c with revealed := true }).reveal_adjacent c).1.cells
          j).revealed = true → zeroReach f c j ∨ borderOf f c j :=
      fun j hjb hjrev => go_sound f c (unrevealedCount
          (f.set c { f.cells c with revealed := true })) offsetList
        (f.set c { f.cells c with revealed := true }) c hg0dims hg0agree
        (fun o' ho' => ho') hzc Relation.ReflTransGen.refl hInv0 j hjb hjrev
    refine ⟨_, _, _, hrun, ?_, ?_⟩
    · intro j hjb
      constructor
      · exact hsound j hjb
      · rintro (hreach | hborder)
        · exact hreach_rev j hreach
        · obtain ⟨⟨hjb', n, hcontj⟩, i, hri, hadj⟩ := hborder
          have hzi : zeroCell f i := zeroReach_zero hzc hri
          have heligj := helig j hjb' ⟨n, hcontj⟩
          obtain ⟨o, ho, hno⟩ := exists_offset_iff.2 ⟨hadj, hjb'⟩
          by_cases hic : i = c
          · exact hA o ho j (hic ▸ hno) heligj
          · have hirev0 : ((f.set c { f.cells c with revealed := true }).cells
                i).revealed = false := by
              rw [hg0rev, if_neg hic]
              exact hunrev i (mem_allIndices.2 hzi.1)
            exact hB i hzi.1 hirev0 (hreach_rev i hri)
              (by rw [hg0agree]; exact hzi.2) o ho j hno heligj
    · intro j hjb hjm
      rcases hjr : (((f.set c { f.cells c with revealed := true }).reveal_adjacent
          c).1.cells j).revealed with - | -
      · rfl
      · rcases hsound j hjb hjr with hreach | hborder
        · have hzj := (zeroReach_zero hzc hreach).2
          rw [hjm] at hzj
          cases hzj
        · obtain ⟨⟨-, n, hn⟩, -⟩ := hborder
          rw [hjm] at hn
          cases hn

/-- Concrete 2×1×1 field, all cells empty and carrying block ids, for the
flood-fill witnesses. -/
def c2Field : Minefield := ⟨(2, 1, 1), fun i => { block := some i.1 }, 0, .Random⟩

/-- Witness for C2 at `c2Field`, opening (0,0,0). -/
theorem c2_flood_fill_closure_witness :
    ∃ f' evs v, clearBlock c2Field (0, 0, 0) = some (f', evs, v) ∧
      (∀ j, inBounds c2Field.dims j →
        ((f'.cells j).revealed = true ↔
          (zeroReach c2Field (0, 0, 0) j ∨ borderOf c2Field (0, 0, 0) j)))
      ∧ (∀ j, inBounds c2Field.dims j → (c2Field.cells j).contains = .Mine →
          (f'.cells j).revealed = false) :=
  c2_flood_fill_closure c2Field (0, 0, 0) (by decide) (by decide) (by decide)
    (by decide)

/- ### C5: flood-fill termination and reveal bound -/

/-- C5: the fill is fuel-stable at `unrevealedCount` (the recursion
terminates: any budget at least the number of unrevealed cells computes the
same result), it emits one `Clear` event per newly revealed cell so that
`events + still-unrevealed = previously-unrevealed`, it performs at most
`N = |grid|` reveal operations, and revealed cells stay revealed (each cell
flips `unrevealed → revealed` at most once). -/
theorem c5_flood_fill_terminates (f : Minefield) (i : Idx) :
    (∀ fuel, unrevealedCount f ≤ fuel →
      revealAdjacentGo fuel f i offsetList = f.reveal_adjacent i)
    ∧ (f.reveal_adjacent i).2.length + unrevealedCount (f.reveal_adjacent i).1 =
        unrevealedCount f
    ∧ (f.reveal_adjacent i).2.length ≤ (allIndices f.dims).length
    ∧ (∀ x, (f.cells x).revealed = true →
        ((f.reveal_adjacent i).1.cells x).revealed = true) := by
  have hcount := go_count (unrevealedCount f) offsetList f i
  refine ⟨fun fuel hfuel => go_stab_canonical fuel f i hfuel, ?_, ?_, ?_⟩
  · rw [Nat.add_comm]
    exact hcount
  · have hle : unrevealedCount f ≤ (allIndices f.dims).length := by
      rw [unrevealedCount]
      exact List.length_filter_le _ _
    rw [Minefield.reveal_adjacent]
    omega
  · intro x hx
    exact go_mono (unrevealedCount f) offsetList f i x hx

/-- Witness for C5 at `c2Field`, filling from (0,0,0). -/
theorem c5_flood_fill_terminates_witness :
    (∀ fuel, unrevealedCount c2Field ≤ fuel →
      revealAdjacentGo fuel c2Field (0, 0, 0) offsetList =
        c2Field.reveal_adjacent (0, 0, 0))
    ∧ (c2Field.reveal_adjacent (0, 0, 0)).2.length +
        unrevealedCount (c2Field.reveal_adjacent (0, 0, 0)).1 =
        unrevealedCount c2Field
    ∧ (c2Field.reveal_adjacent (0, 0, 0)).2.length ≤
        (allIndices c2Field.dims).length
    ∧ (∀ x, (c2Field.cells x).revealed = true →
        ((c2Field.reveal_adjacent (0, 0, 0)).1.cells x).revealed = true) :=
  c5_flood_fill_terminates c2Field (0, 0, 0)

/-- A fill step in which every existing neighbor is skipped (already revealed,
a mine, or without a block id) does nothing and emits nothing. -/
theorem go_noop (fuel : ℕ) (os : List (ℤ × ℤ × ℤ)) (f : Minefield) (c : Idx)
    (h : ∀ o ∈ os, ∀ j, neighborIn f.dims c o = some j →
      ((f.cells j).revealed = true ∨ (f.cells j).contains = .Mine ∨
        (f.cells j).block = none)) :
    revealAdjacentGo fuel f c os = (f, []) := by
  induction os with
  | nil => simp [revealAdjacentGo]
  | cons o os ih =>
    have ih' := ih fun o' ho' => h o' (List.mem_cons_of_mem _ ho')
    rw [revealAdjacentGo]
    rcases hn : neighborIn f.dims c o with - | j
    · simp only [hn]
      exact ih'
    · simp only [hn]
      rcases h o (List.mem_cons_self _ _) j hn with ho | ho | ho
      · simp only [ho]
        exact ih'
      · rcases hrev : (f.cells j).revealed with - | -
        · simp only [ho]
          exact ih'
        · simp only
          exact ih'
      · rcases hrev : (f.cells j).revealed with - | -
        · simp only
          rcases hcont : (f.cells j).contains with - | n
          · simp only
            exact ih'
          · simp only [ho]
            exact ih'
        · simp only
          exact ih'

/- ### C10: neighbors without a block entity are skipped -/

theorem Cell.ext' {a b : Cell} (h1 : a.contains = b.contains)
    (h2 : a.revealed = b.revealed) (h3 : a.block = b.block) : a = b := by
  cases a
  cases b
  simp only at h1 h2 h3
  rw [h1, h2, h3]

/-- Concrete 1×1×3 line of empty cells whose middle cell lacks a block
entity; it separates the two outer cells. -/
def blockField : Minefield :=
  ⟨(1, 1, 3), fun i => if i = (0, 0, 1) then {} else { block := some i.2.2 }, 0,
    .Random⟩

/-- C10: an in-bounds unrevealed neighbor whose `block` is `None` is skipped
entirely by the flood fill: its cell is untouched, no event carries a block id
that is not some cell's, and (concretely) a blockless zero cell does not
propagate the fill: in `blockField`, filling from (0,0,0) reveals nothing and
emits nothing, because the only neighbor (0,0,1) has no block, even though it
is `Empty 0`; in particular (0,0,2) stays hidden. -/
theorem c10_blockless_skipped (f : Minefield) (i : Idx) :
    (∀ x, (f.cells x).block = none → (f.reveal_adjacent i).1.cells x = f.cells x)
    ∧ (∀ id cont, BlockEvent.Clear id cont ∈ (f.reveal_adjacent i).2 →
        ∃ x, inBounds f.dims x ∧ (f.cells x).block = some id ∧
          (f.cells x).revealed = false ∧ (f.cells x).contains = cont)
    ∧ ((blockField.reveal_adjacent (0, 0, 0)).2 = []
        ∧ ((blockField.reveal_adjacent (0, 0, 0)).1.cells (0, 0, 1)).revealed = false
        ∧ ((blockField.reveal_adjacent (0, 0, 0)).1.cells (0, 0, 2)).revealed =
            false) := by
  refine ⟨?_, ?_, ?_⟩
  · intro x hx
    apply Cell.ext'
    · exact go_contains _ _ f i x
    · exact go_blockless _ _ f i x hx
    · exact go_block _ _ f i x
  · intro id cont hev
    obtain ⟨x, id', n, heq, hxb, hbl, hrv, hcn⟩ :=
      go_events (unrevealedCount f) offsetList f i _ hev
    obtain ⟨h1, h2⟩ : id = id' ∧ cont = Contains.Empty n := by
      cases heq
      exact ⟨rfl, rfl⟩
    exact ⟨x, hxb, h1 ▸ hbl, hrv, h2 ▸ hcn⟩
  · have hno : blockField.reveal_adjacent (0, 0, 0) = (blockField, []) := by
      rw [Minefield.reveal_adjacent]
      apply go_noop
      intro o ho j hj
      have hj' : neighborIn blockField.dims (0, 0, 0) o = some j := hj
      have hdec : ∀ o' ∈ offsetList,
          ∀ j' ∈ (neighborIn blockField.dims (0, 0, 0) o').toList,
          ((blockField.cells j').revealed = true ∨
            (blockField.cells j').contains = .Mine ∨
            (blockField.cells j').block = none) := by decide
      refine hdec o ho j ?_
      rw [Option.mem_toList]
      exact hj'
    rw [hno]
    refine ⟨rfl, rfl, rfl⟩

/-- Witness for C10: a cell of `blockField` with no block id is untouched by
the fill from (0,0,0). -/
theorem c10_blockless_skipped_witness :
    (blockField.reveal_adjacent (0, 0, 0)).1.cells (0, 0, 1) =
      blockField.cells (0, 0, 1) :=
  (c10_blockless_skipped blockField (0, 0, 0)).1 (0, 0, 1) (by decide)

/- ### C3: win and defeat detection -/

/-- Modelled from the spec: the session outcome enumeration
`Ended(Victory|Defeat)`. The `GameResult` resource is written by
`handle_field_events` but its definition is not among the sources under
`src/`. -/
inductive GameResult where
  | Victory
  | Defeat
deriving DecidableEq

/-- The session-result write performed while an open command resolves: the
only assignment in `handle_field_events` sets `GameResult::Victory` under the
`fully_revealed` check, and no handler of the open path writes `Defeat`
(`handle_block_events` only moves the state machine to `GameOver` on a
mine). -/
def resultAfterOpen (prev : GameResult) (v : Bool) : GameResult :=
  if v then .Victory else prev

theorem fully_revealed_iff (f : Minefield) :
    fully_revealed f = true ↔
      ∀ j ∈ allIndices f.dims, (f.cells j).contains ≠ .Mine →
        (f.cells j).revealed = true := by
  rw [fully_revealed, List.all_eq_true]
  constructor
  · intro h j hj hm
    have h' := h j hj
    simp only [Bool.or_eq_true, decide_eq_true_eq] at h'
    exact h'.resolve_right hm
  · intro h j hj
    simp only [Bool.or_eq_true, decide_eq_true_eq]
    by_cases hm : (f.cells j).contains = .Mine
    · exact Or.inr hm
    · exact Or.inl (h j hj hm)

theorem clearBlockTail_victory_flag (f f' : Minefield) (evs : List BlockEvent)
    (v : Bool) (i : Idx) (h : clearBlockTail f i = some (f', evs, v)) :
    v = fully_revealed f' := by
  unfold clearBlockTail at h
  split at h
  · exact Option.noConfusion h
  · split at h
    · exact Option.noConfusion h
    · split at h
      · simp only [Option.some.injEq, Prod.mk.injEq] at h
        obtain ⟨rfl, -, rfl⟩ := h
        rfl
      · simp only [Option.some.injEq, Prod.mk.injEq] at h
        obtain ⟨rfl, -, rfl⟩ := h
        rfl

theorem clearBlock_victory_flag (f f' : Minefield) (evs : List BlockEvent)
    (v : Bool) (i : Idx) (h : clearBlock f i = some (f', evs, v)) :
    v = fully_revealed f' := by
  unfold clearBlock at h
  split at h
  · exact Option.noConfusion h
  · exact clearBlockTail_victory_flag _ _ _ _ _ h

/-- The block list and the concrete post-initialization field of the C3
counterexample: a 1-cell field with density 1 under `Random`, opened at its
only cell. -/
def c3Blocks : List (ℕ × Idx) := [(0, (0, 0, 0))]

def c3Field : Minefield :=
  initField (randomField.set (0, 0, 0)
      { randomField.cells (0, 0, 0) with revealed := true })
    c3Blocks (0, 0, 0) id (fun _ => true)

theorem c3w_numMines :
    numMines (allIndices (randomField.set (0, 0, 0)
        { randomField.cells (0, 0, 0) with revealed := true }).dims).length
      (randomField.set (0, 0, 0)
        { randomField.cells (0, 0, 0) with revealed := true }).density = 1 := by
  show numMines (allIndices ((1 : ℕ), (1 : ℕ), (1 : ℕ))).length (1 : ℚ) = 1
  have hl : (allIndices ((1 : ℕ), (1 : ℕ), (1 : ℕ))).length = 1 := by decide
  rw [hl]
  exact numMines_density_one 1

set_option maxRecDepth 8000 in
/-- C3, counterexample: on the 1-cell field with density 1 under `Random`, the
first open places a mine on the opened cell, yet `fully_revealed` succeeds
(mine cells are exempt from the check), so the open resolves with the victory
flag set and the session result becomes `Victory`, not `Defeat`, although a
mine was opened. -/
theorem c3_mine_victory_counterexample :
    ((c3Field.cells (0, 0, 0)).contains = .Mine) ∧
    clearBlockFirst randomField c3Blocks id (fun _ => true) (0, 0, 0) =
      some (c3Field, [BlockEvent.Clear 0 .Mine], true) ∧
    resultAfterOpen GameResult.Defeat true = .Victory := by
  have heval := initField_eval (randomField.set (0, 0, 0)
      { randomField.cells (0, 0, 0) with revealed := true }) c3Blocks (0, 0, 0) id
    (fun _ => true) 1 c3w_numMines
  have hc3 : c3Field = _ := heval
  refine ⟨?_, ?_, rfl⟩
  · rw [hc3]
    decide
  · have hget : randomField.get? (0, 0, 0) = some (randomField.cells (0, 0, 0)) := by
      decide
    simp only [clearBlockFirst, hget]
    rw [heval, hc3]
    rfl

/-- C3, amended: resolving an open command assigns `Victory` exactly when
every non-mine cell of the resulting field is revealed — also when the opened
cell itself is a mine — and no open ever assigns `Defeat` (the result is
`Defeat` afterwards only if it already was before). -/
theorem c3_victory_no_defeat (prev : GameResult) (f f' : Minefield)
    (evs : List BlockEvent) (v : Bool) (i : Idx)
    (h : clearBlock f i = some (f', evs, v)) :
    (resultAfterOpen prev v = .Victory ↔
      (∀ j ∈ allIndices f'.dims, (f'.cells j).contains ≠ .Mine →
        (f'.cells j).revealed = true) ∨ prev = .Victory) ∧
    (resultAfterOpen prev v = .Defeat → prev = .Defeat) := by
  have hv : v = fully_revealed f' := clearBlock_victory_flag f f' evs v i h
  subst hv
  simp only [resultAfterOpen]
  rcases hfr : fully_revealed f'
  · rw [if_neg Bool.false_ne_true]
    have hnot : ¬ ∀ j ∈ allIndices f'.dims, (f'.cells j).contains ≠ .Mine →
        (f'.cells j).revealed = true := fun hall => by
      rw [(fully_revealed_iff f').2 hall] at hfr
      exact Bool.noConfusion hfr
    exact ⟨⟨fun hp => Or.inr hp, fun hor => hor.resolve_left hnot⟩, fun hd => hd⟩
  · rw [if_pos rfl]
    have hall := (fully_revealed_iff f').1 hfr
    exact ⟨⟨fun h3 => Or.inl hall, fun h3 => rfl⟩, fun hd => GameResult.noConfusion hd⟩

/-- The field of the C3 witness: one mine cell carrying block id 0. -/
def c3wField : Minefield :=
  ⟨(1, 1, 1), fun _ => { contains := .Mine, block := some 0 }, 0, .Random⟩

/-- Witness for C3: opening the mine of `c3wField` resolves with the victory
flag, and the amended theorem's conclusions hold there. -/
theorem c3_victory_no_defeat_witness :
    (resultAfterOpen GameResult.Defeat true = .Victory ↔
      (∀ j ∈ allIndices ((1 : ℕ), (1 : ℕ), (1 : ℕ)),
        ((c3wField.set (0, 0, 0)
            { c3wField.cells (0, 0, 0) with revealed := true }).cells j).contains ≠
          .Mine →
        ((c3wField.set (0, 0, 0)
            { c3wField.cells (0, 0, 0) with revealed := true }).cells j).revealed =
          true) ∨
      GameResult.Defeat = .Victory) ∧
    (resultAfterOpen GameResult.Defeat true = .Defeat → GameResult.Defeat = .Defeat) :=
  c3_victory_no_defeat GameResult.Defeat c3wField
    (c3wField.set (0, 0, 0) { c3wField.cells (0, 0, 0) with revealed := true })
    [BlockEvent.Clear 0 .Mine] true (0, 0, 0) rfl

/- ### C8: rejection of no-op commands at the controller boundary -/

/-- Mirrors the fields of `Block` that `handle_ray_events` and
`raycast_blocks` read (`bb`, the bounding box, enters only through the ray
intersection, which is the `dist` parameter below). -/
structure RBlock where
  marked : Bool := false
  revealed : Option Contains := none
  index : Idx := (0, 0, 0)
deriving DecidableEq

/-- The two ray commands of `RayEvent` (the ray itself is abstracted into the
`dist` intersection function). -/
inductive RayEvent where
  | ClearBlock
  | MarkBlock

/-- Mirrors `FieldEvent`. -/
inductive FieldEvent where
  | SpawnBlock (entity : ℕ) (index : Idx)
  | ClearBlock (index : Idx)
deriving DecidableEq

/-- The hit list built inside `raycast_blocks`: unrevealed blocks only, each
paired with its ray distance when the cast intersects its bounding box. -/
def rayHits (dist : ℕ → Option ℚ) (blocks : List (ℕ × RBlock)) :
    List (ℚ × ℕ × RBlock) :=
  (blocks.filter fun eb => eb.2.revealed.isNone).filterMap
    fun eb => (dist eb.1).map fun d => (d, eb.1, eb.2)

/-- Mirrors `raycast_blocks`: sort the hits by distance and take the first. -/
def raycast_blocks (dist : ℕ → Option ℚ) (blocks : List (ℕ × RBlock)) :
    Option (RBlock × ℕ × Idx) :=
  match ((rayHits dist blocks).mergeSort fun a b => decide (a.1 ≤ b.1)).head? with
  | none => none
  | some (_, hit, block) => some (block, hit, block.index)

/-- Mirrors one iteration of `handle_ray_events`: the field events and block
events sent for one ray command. -/
def handle_ray_event (dist : ℕ → Option ℚ) (blocks : List (ℕ × RBlock)) :
    RayEvent → List FieldEvent × List BlockEvent
  | .ClearBlock =>
    match raycast_blocks dist blocks with
    | some (block, _, index) =>
      if block.marked then ([], []) else ([FieldEvent.ClearBlock index], [])
    | none => ([], [])
  | .MarkBlock =>
    match raycast_blocks dist blocks with
    | some (_, e, _) => ([], [BlockEvent.Mark e])
    | none => ([], [])

theorem raycast_some (dist : ℕ → Option ℚ) (blocks : List (ℕ × RBlock))
    (block : RBlock) (e : ℕ) (index : Idx)
    (h : raycast_blocks dist blocks = some (block, e, index)) :
    block.revealed = none := by
  unfold raycast_blocks at h
  rcases hh : ((rayHits dist blocks).mergeSort fun a b => decide (a.1 ≤ b.1)).head? with
    - | x
  · rw [hh] at h
    exact Option.noConfusion h
  · have hx : x ∈ rayHits dist blocks :=
      (List.mergeSort_perm _ _).mem_iff.1 (List.mem_of_mem_head? (Option.mem_def.2 hh))
    obtain ⟨eb, heb, hfx⟩ := List.mem_filterMap.1 hx
    obtain ⟨hmem, hrev⟩ := List.mem_filter.1 heb
    obtain ⟨d, -, hdx⟩ := Option.map_eq_some'.1 hfx
    obtain ⟨d0, hit0, blk0⟩ := x
    rw [hh] at h
    simp only [Option.some.injEq, Prod.mk.injEq] at h
    obtain ⟨rfl, -, -⟩ := h
    have : blk0 = eb.2 := by
      have := congrArg (fun p : ℚ × ℕ × RBlock => p.2.2) hdx
      exact this.symm
    rw [this]
    exact Option.isNone_iff_eq_none.1 hrev

theorem raycast_all_revealed_none (dist : ℕ → Option ℚ)
    (blocks : List (ℕ × RBlock))
    (hall : ∀ eb ∈ blocks, eb.2.revealed = none → dist eb.1 = none) :
    raycast_blocks dist blocks = none := by
  have hnil : rayHits dist blocks = [] := by
    rw [rayHits, List.filterMap_eq_nil_iff]
    intro eb heb
    obtain ⟨hmem, hrev⟩ := List.mem_filter.1 heb
    rw [hall eb hmem (Option.isNone_iff_eq_none.1 hrev)]
    rfl
  rw [raycast_blocks, hnil, List.mergeSort_nil]
  rfl

/-- C8: no-op commands are rejected at the controller boundary: a resolved
raycast target is never a revealed block (so a mark can never target a
revealed cell), an open resolving to a marked block sends no event, and when
the ray meets only revealed blocks both commands resolve to nothing and send
no event. -/
theorem c8_noop_rejected (dist : ℕ → Option ℚ) (blocks : List (ℕ × RBlock)) :
    (∀ block e index, raycast_blocks dist blocks = some (block, e, index) →
      block.revealed = none ∧ (block.marked = true →
        handle_ray_event dist blocks .ClearBlock = ([], []))) ∧
    ((∀ eb ∈ blocks, eb.2.revealed = none → dist eb.1 = none) →
      handle_ray_event dist blocks .ClearBlock = ([], []) ∧
      handle_ray_event dist blocks .MarkBlock = ([], [])) := by
  constructor
  · intro block e index h
    refine ⟨raycast_some dist blocks block e index h, fun hm => ?_⟩
    simp only [handle_ray_event, h, hm, if_pos]
  · intro hall
    have hnone := raycast_all_revealed_none dist blocks hall
    constructor
    · simp only [handle_ray_event, hnone]
    · simp only [handle_ray_event, hnone]

/-- The concrete block lists of the C8 witness: a marked unrevealed block the
ray hits first, and a revealed-only scene. -/
def c8Blocks : List (ℕ × RBlock) :=
  [(0, { marked := true }), (1, { revealed := some (.Empty 0) })]

def c8Blocks2 : List (ℕ × RBlock) := [(0, { revealed := some (.Empty 0) })]

theorem c8_raycast : raycast_blocks (fun _ => some 1) c8Blocks =
    some ({ marked := true }, 0, (0, 0, 0)) := by
  have hh : rayHits (fun _ => some 1) c8Blocks =
      [((1 : ℚ), 0, ({ marked := true } : RBlock))] := rfl
  rw [raycast_blocks, hh]
  have hs : ([((1 : ℚ), 0, ({ marked := true } : RBlock))].mergeSort
      fun a b => decide (a.1 ≤ b.1)) = [((1 : ℚ), 0, ({ marked := true } : RBlock))] :=
    List.perm_singleton.1 (List.mergeSort_perm _ _)
  rw [hs]
  rfl

/-- Witness for C8: in a concrete scene the open on the marked first-hit block
sends nothing, and with only revealed blocks in the ray both commands send
nothing. -/
theorem c8_noop_rejected_witness :
    (({ marked := true } : RBlock).revealed = none ∧
      (({ marked := true } : RBlock).marked = true →
        handle_ray_event (fun _ => some 1) c8Blocks .ClearBlock = ([], []))) ∧
    (handle_ray_event (fun _ => some 1) c8Blocks2 .ClearBlock = ([], []) ∧
      handle_ray_event (fun _ => some 1) c8Blocks2 .MarkBlock = ([], [])) :=
  ⟨(c8_noop_rejected (fun _ => some 1) c8Blocks).1 { marked := true } 0 (0, 0, 0)
      c8_raycast,
    (c8_noop_rejected (fun _ => some 1) c8Blocks2).2 (by decide)⟩

/- ### C9: the end-of-round reveal pass -/

/-- Mirrors the loop of `reveal_all`: every cell in iteration order is set
revealed and an `EndReveal` event with its block id (`unwrap`: `none` is an
undefined result) and contents is sent — already-revealed cells included. -/
def revealAllGo : Minefield → List Idx → Option (Minefield × List BlockEvent)
  | f, [] => some (f, [])
  | f, i :: is =>
    ((f.cells i).block).bind fun id =>
      (revealAllGo
          (f.set i { contains := (f.cells i).contains, revealed := true, block := (f.cells i).block })
          is).map
        fun fe => (fe.1, BlockEvent.EndReveal id (f.cells i).contains :: fe.2)

/-- Mirrors `reveal_all`: the pass runs over every cell of the grid. -/
def reveal_all (f : Minefield) : Option (Minefield × List BlockEvent) :=
  revealAllGo f (allIndices f.dims)

theorem revealAllGo_spec (l : List Idx) (f : Minefield)
    (hblocks : ∀ i ∈ l, (f.cells i).block ≠ none) :
    ∃ f', revealAllGo f l = some (f', l.map fun i =>
        BlockEvent.EndReveal ((f.cells i).block.getD 0) (f.cells i).contains) ∧
      ∀ i, (f'.cells i).contains = (f.cells i).contains ∧
        (f'.cells i).block = (f.cells i).block ∧
        ((f'.cells i).revealed = true ↔ i ∈ l ∨ (f.cells i).revealed = true) := by
  induction l generalizing f with
  | nil =>
    refine ⟨f, rfl, fun i => ⟨rfl, rfl, ?_⟩⟩
    simp
  | cons i is ih =>
    rcases hb : (f.cells i).block with - | id
    · exact absurd hb (hblocks i (List.mem_cons_self _ _))
    · have hcells : ∀ j,
          ((f.set i { contains := (f.cells i).contains, revealed := true, block := some id }).cells j).contains =
            (f.cells j).contains ∧
          ((f.set i { contains := (f.cells i).contains, revealed := true, block := some id }).cells j).block =
            (f.cells j).block := by
        intro j
        by_cases hij : j = i
        · subst hij
          constructor
          · simp [Minefield.set]
          · simp [Minefield.set, hb]
        · constructor
          · simp [Minefield.set, hij]
          · simp [Minefield.set, hij]
      have hbl1 : ∀ j ∈ is,
          ((f.set i { contains := (f.cells i).contains, revealed := true, block := some id }).cells j).block ≠
            none := by
        intro j hj
        rw [(hcells j).2]
        exact hblocks j (List.mem_cons_of_mem _ hj)
      obtain ⟨f', hrun, hpres⟩ :=
        ih (f.set i { contains := (f.cells i).contains, revealed := true, block := some id }) hbl1
      refine ⟨f', ?_, ?_⟩
      · rw [revealAllGo, hb]
        simp only [Option.some_bind, hrun, Option.map_some', List.map_cons, hb,
          Option.getD_some]
        exact congrArg
          (fun l => some (f', BlockEvent.EndReveal id (f.cells i).contains :: l))
          (List.map_congr_left fun j _ =>
            congrArg₂ (fun o c => BlockEvent.EndReveal (Option.getD o 0) c)
              (hcells j).2 (hcells j).1)
      · intro j
        obtain ⟨hc, hbk, hrv⟩ := hpres j
        rw [(hcells j).1] at hc
        rw [(hcells j).2] at hbk
        refine ⟨hc, hbk, ?_⟩
        rw [hrv]
        by_cases hij : j = i
        · subst hij
          simp [Minefield.set, List.mem_cons]
        · simp [Minefield.set, hij, List.mem_cons]

/-- The field of the C9 counterexample and witness: its only cell is already
revealed when the pass runs. -/
def c9Field : Minefield :=
  ⟨(1, 1, 1),
    fun _ => { contains := .Empty 0, revealed := true, block := some 0 }, 0, .Random⟩

/-- C9, counterexample: on `c9Field` no cell is hidden, yet the end-of-round
pass still emits an `EndReveal` for the (already revealed) cell; the claimed
"exactly the hidden cells" behavior would emit nothing here. -/
theorem c9_hidden_only_counterexample :
    (∀ i ∈ allIndices c9Field.dims, (c9Field.cells i).revealed = true) ∧
    (reveal_all c9Field).map (fun p => p.2) =
      some [BlockEvent.EndReveal 0 (.Empty 0)] := by
  constructor
  · decide
  · rfl

/-- C9, amended: when every cell carries a block id, the end-of-round pass
emits exactly one `EndReveal` per grid cell — already-revealed cells included
— in grid order, carrying the cell's block id and contents, and afterwards
every cell is revealed. -/
theorem c9_end_reveal (f : Minefield)
    (hblocks : ∀ i ∈ allIndices f.dims, (f.cells i).block ≠ none) :
    ∃ f', reveal_all f = some (f', (allIndices f.dims).map fun i =>
        BlockEvent.EndReveal ((f.cells i).block.getD 0) (f.cells i).contains) ∧
      ∀ i ∈ allIndices f.dims, (f'.cells i).revealed = true := by
  obtain ⟨f', hrun, hpres⟩ := revealAllGo_spec (allIndices f.dims) f hblocks
  exact ⟨f', hrun, fun i hi => (hpres i).2.2.2 (Or.inl hi)⟩

/-- Witness for C9: the amended pass on `c9Field` emits one event for its one
(already revealed) cell. -/
theorem c9_end_reveal_witness :
    ∃ f', reveal_all c9Field = some (f', (allIndices c9Field.dims).map fun i =>
        BlockEvent.EndReveal ((c9Field.cells i).block.getD 0)
          (c9Field.cells i).contains) ∧
      ∀ i ∈ allIndices c9Field.dims, (f'.cells i).revealed = true :=
  c9_end_reveal c9Field (by decide)

end Sweeper
